import Mathlib

/-!
# Verification of the Auto Patrol Manager planning engine

A shallow embedding of the core planning engine of `auto-patrol-manager.js`
(an OpenRCT2 plugin): footpath-graph construction, scenery-branch pruning,
food-court detection, balanced handyman zoning with dead-end rescue,
and mechanic exit clustering with Prim tree routes.

JavaScript data is modelled as follows: tile maps become functions
`Nat → Nat → List Element`; `Set` objects (insertion ordered, add/delete/has)
become `List Nat` with append-if-missing adds and `List.erase` deletes;
`Map` objects keyed by node id become association lists or `Nat → Option Nat`
functions; the unbounded JS `while` loops become fuel-indexed recursion.
All machine numbers involved are small non-negative integers (tile counts,
hop distances, the `1e9` infinity sentinel), so `Nat`/`Int` model them
exactly; no overflow is reachable.
-/

namespace AutoPatrol

/-- Kind of a tile element, as distinguished by `buildPathGraph`
(`el.type` being `"footpath"`, `"rideEntrance"`, `"rideExit"`, or anything
else). -/
inductive EType where
  | footpath
  | rideEntrance
  | rideExit
  | other
  deriving DecidableEq

/-- One tile element: its type and whether it is a queue-flagged footpath
(the JS reads `el.isQueue === true || el.queue === true || flags has "queue"`;
the three defensive spellings denote one semantic flag, modelled as
`queued`). -/
structure Element where
  etype : EType
  queued : Bool
  deriving DecidableEq

/-- A map snapshot: the elements found on tile `(x, y)`
(`map.getTile(x,y).elements`; a missing tile is the empty list). -/
def TileMap : Type := Nat → Nat → List Element

/-- A graph node as built by `buildPathGraph`:
`{ id, x, y, attractor }` (the mutable `deg`/`component`/`valid` fields are
recomputed downstream and not part of the immutable node data). -/
structure Node where
  id : Nat
  x : Nat
  y : Nat
  attractor : Bool
  deriving DecidableEq

/-- `hasPath` flag of the tile scan: some element has type `"footpath"`. -/
def tileHasPath (els : List Element) : Bool :=
  els.any fun el => el.etype == EType.footpath

/-- `isQueue` flag of the tile scan: some footpath element is queue-flagged. -/
def tileIsQueue (els : List Element) : Bool :=
  els.any fun el => el.etype == EType.footpath && el.queued

/-- The tile carries a ride entrance or exit marker (the scan adds its
coordinate to the `attractors` set). -/
def tileIsAttractor (els : List Element) : Bool :=
  els.any fun el => el.etype == EType.rideEntrance || el.etype == EType.rideExit

/-- `buildPathGraph` creates a node for the tile iff `hasPath && !isQueue`. -/
def tileMakesNode (els : List Element) : Bool :=
  tileHasPath els && !tileIsQueue els

/-- Coordinates receiving a node, in scan order (`x` outer, `y` inner,
ids assigned densely in this order). -/
def pathCoords (m : TileMap) (W H : Nat) : List (Nat × Nat) :=
  (List.range W).flatMap fun x =>
    ((List.range H).filter fun y => tileMakesNode (m x y)).map fun y => (x, y)

/-- The node list: id = position in `pathCoords`, attractor flag from the
tile's entrance/exit markers (`attractors.has(key(x,y))`). -/
def buildNodes (m : TileMap) (W H : Nat) : List Node :=
  (pathCoords m W H).enum.map fun p =>
    { id := p.1, x := p.2.1, y := p.2.2, attractor := tileIsAttractor (m p.2.1 p.2.2) }

/-- The `idByXY` lookup: the id of the node at `(x, y)`, if any. -/
def idAtXY (coords : List (Nat × Nat)) (x y : Nat) : Option Nat :=
  coords.findIdx? fun p => p == (x, y)

/-- The 4-neighbour candidate coordinates in the scan's order
`[+x, -x, +y, -y]`; a `-1` coordinate is outside the map and its lookup
fails, so it is dropped here already. -/
def neighborCoords (x y : Nat) : List (Nat × Nat) :=
  [(x + 1, y)] ++ (if 0 < x then [(x - 1, y)] else [])
    ++ [(x, y + 1)] ++ (if 0 < y then [(x, y - 1)] else [])

/-- The adjacency lists: `edges[i]` holds the ids of existing 4-neighbours
of node `i`. -/
def buildEdges (coords : List (Nat × Nat)) : List (List Nat) :=
  coords.map fun p => (neighborCoords p.1 p.2).filterMap fun q => idAtXY coords q.1 q.2

/-- The output of `buildPathGraph`: nodes, adjacency, the initial
`validNodeIds` (all nodes) and `attractorNodeIds`. -/
structure Graph where
  nodes : List Node
  edges : List (List Nat)
  validIds : List Nat
  attractorIds : List Nat

/-- `buildPathGraph` with the default settings
(`includeFacilitiesCuldesacs = false`, so attractors are exactly the
ride entrance/exit tiles). -/
def buildPathGraph (m : TileMap) (W H : Nat) : Graph :=
  let coords := pathCoords m W H
  let nodes := buildNodes m W H
  { nodes := nodes
    edges := buildEdges coords
    validIds := nodes.map (·.id)
    attractorIds := (nodes.filter (·.attractor)).map (·.id) }

/-! ## Scenery-branch pruning (`pruneSceneryBranches`) -/

/-- `adjacentToAttractor(id)`: the node is an attractor or some graph
neighbour is one. -/
def adjAttr (edges : List (List Nat)) (attr : List Nat) (id : Nat) : Bool :=
  attr.contains id || (edges.getD id []).any fun nb => attr.contains nb

/-- Degree of `id` counted within the current valid set
(`for (const nb of edges[id]) if (valid.has(nb)) deg[id]++`). -/
def degValid (edges : List (List Nat)) (valid : List Nat) (id : Nat) : Nat :=
  ((edges.getD id []).filter fun nb => valid.contains nb).length

/-- One neighbour visit of the removal branch: if the neighbour is still
valid, decrement its degree (`deg[nb]--`) and push it when its new degree
is ≤ 1 and it is not attractor-adjacent. -/
def pruneStep (edges : List (List Nat)) (attr : List Nat) (valid' : List Nat)
    (st : (Nat → Nat) × List Nat) (nb : Nat) : (Nat → Nat) × List Nat :=
  if valid'.contains nb then
    let dnb := st.1 nb - 1
    let d' := fun m => if m = nb then dnb else st.1 m
    if dnb ≤ 1 && !adjAttr edges attr nb then (d', nb :: st.2) else (d', st.2)
  else st

/-- The removal branch of the prune loop: delete `id` from the valid set,
then visit each neighbour (`queue.push`; the JS array is popped from the
end, so the Lean stack head is the array end). -/
def removeNode (edges : List (List Nat)) (attr : List Nat) (id : Nat)
    (valid : List Nat) (deg : Nat → Nat) (stack : List Nat) :
    List Nat × (Nat → Nat) × List Nat :=
  let valid' := valid.erase id
  let st := (edges.getD id []).foldl (pruneStep edges attr valid') (deg, stack)
  (valid', st.1, st.2)

/-- The `while (queue.length)` loop of `pruneSceneryBranches`; fuel-indexed,
`none` when the fuel runs out before the queue empties. -/
def pruneLoop (edges : List (List Nat)) (attr : List Nat) :
    Nat → List Nat → (Nat → Nat) → List Nat → Option (List Nat)
  | _, valid, _, [] => some valid
  | 0, _, _, _ :: _ => none
  | fuel + 1, valid, deg, id :: rest =>
      if !valid.contains id then pruneLoop edges attr fuel valid deg rest
      else if adjAttr edges attr id then pruneLoop edges attr fuel valid deg rest
      else
        let s := removeNode edges attr id valid deg rest
        pruneLoop edges attr fuel s.1 s.2.1 s.2.2

/-- Initial work queue: every valid node of degree ≤ 1 that is not
attractor-adjacent, in valid-set order; reversed because the JS array is
consumed from its end. -/
def initQueue (edges : List (List Nat)) (attr : List Nat) (valid : List Nat) : List Nat :=
  (valid.filter fun id => decide (degValid edges valid id ≤ 1) && !adjAttr edges attr id).reverse

/-- The whole pruning pass from an arbitrary valid set: initial degrees,
initial work queue, then the peeling loop. -/
def pruneFrom (edges : List (List Nat)) (attr : List Nat) (valid : List Nat)
    (fuel : Nat) : Option (List Nat) :=
  pruneLoop edges attr fuel valid (fun id => degValid edges valid id)
    (initQueue edges attr valid)

/-- `pruneSceneryBranches` on a built graph: the surviving valid set. -/
def pruneScenery (g : Graph) (fuel : Nat) : Option (List Nat) :=
  pruneFrom g.edges g.attractorIds g.validIds fuel

/-! ### Scenario A: the 10-tile corridor -/

/-- Scenario A's map: a straight corridor of plain footpath at
`(0,0) … (9,0)`, with a ride exit marker on `(9,0)`. -/
def corridorMap : TileMap := fun x y =>
  if y = 0 ∧ x < 10 then
    ⟨EType.footpath, false⟩ :: (if x = 9 then [⟨EType.rideExit, false⟩] else [])
  else []

/-- The built corridor graph (10 × 1 scan). -/
def corridorGraph : Graph := buildPathGraph corridorMap 10 1

/-- The corridor's pruning result (ample fuel). -/
def corridorPrune : Option (List Nat) := pruneScenery corridorGraph 100

end AutoPatrol

namespace AutoPatrol

/-- The `1e9` infinity/"no best yet" sentinel used throughout the plugin. -/
def INF : Nat := 1000000000

/-- `Set.add`: append if missing (JS `Set` iteration is insertion order). -/
def addTile (z : List Nat) (t : Nat) : List Nat := if z.contains t then z else z ++ [t]

/-! ## Food-court detection (`detectFoodCourts`) -/

/-- A detected food court: its tile set and the seed coordinate (its
permanent centre). The display name and `staffNeeded` are derived data
playing no role in the claims. -/
structure FoodCourt where
  tiles : List Nat
  cx : Nat
  cy : Nat
  deriving DecidableEq, Inhabited

/-- `Plan.idByXY.get(key(x, y))` as a search over the node list. -/
def nodeIdAt (nodes : List Node) (x y : Nat) : Option Nat :=
  (nodes.find? fun n => n.x == x && n.y == y).map (·.id)

/-- The radius test of the court growth: the candidate's coordinate lies
within squared distance `R2` of the seed's coordinate. -/
def inRadius (nodes : List Node) (cx cy R2 nb : Nat) : Bool :=
  let nv := nodes.getD nb ⟨0, 0, 0, false⟩
  decide (((nv.x : Int) - cx) * ((nv.x : Int) - cx)
    + ((nv.y : Int) - cy) * ((nv.y : Int) - cy) ≤ (R2 : Int))

/-- One neighbour visit of the court growth: skip non-valid, visited or
out-of-radius nodes, else mark visited and enqueue. State is
`(visited, queue)`. -/
def growVisit (validIds : List Nat) (nodes : List Node) (cx cy R2 : Nat)
    (st : List Nat × List Nat) (nb : Nat) : List Nat × List Nat :=
  if validIds.contains nb && !st.1.contains nb && inRadius nodes cx cy R2 nb then
    (st.1 ++ [nb], st.2 ++ [nb])
  else st

/-- The court-growth loop
(`while (q.length && tiles.size < maxTiles)`; `q.shift()` is FIFO).
Returns `(tiles, visited)`. -/
def growLoop (edges : List (List Nat)) (validIds : List Nat) (nodes : List Node)
    (cx cy R2 maxTiles : Nat) :
    Nat → List Nat → List Nat → List Nat → List Nat × List Nat
  | 0, _, vis, tiles => (tiles, vis)
  | _ + 1, [], vis, tiles => (tiles, vis)
  | fuel + 1, v :: q, vis, tiles =>
      if tiles.length < maxTiles then
        let tiles' := if tiles.contains v then tiles else tiles ++ [v]
        let st := (edges.getD v []).foldl (growVisit validIds nodes cx cy R2) (vis, q)
        growLoop edges validIds nodes cx cy R2 maxTiles fuel st.2 st.1 tiles'
      else (tiles, vis)

/-- Processing of one stall centre: resolve the seed's node, skip invalid
or already-visited seeds, grow, and accept the court iff it reaches the
fixed 20-tile floor. The visited set is threaded through *unconditionally*
(also when the grown cluster is discarded). State is `(courts, visited)`. -/
def detectStep (edges : List (List Nat)) (validIds : List Nat) (nodes : List Node)
    (R2 maxTiles : Nat) (st : List FoodCourt × List Nat) (c : Nat × Nat) :
    List FoodCourt × List Nat :=
  match nodeIdAt nodes c.1 c.2 with
  | none => st
  | some nid =>
      if !validIds.contains nid then st
      else if st.2.contains nid then st
      else
        let g := growLoop edges validIds nodes c.1 c.2 R2 maxTiles
          (validIds.length + 1) [nid] (st.2 ++ [nid]) []
        if 20 ≤ g.1.length then (st.1 ++ [⟨g.1, c.1, c.2⟩], g.2) else (st.1, g.2)

/-- `detectFoodCourts` from the already-selected stall centres: grow courts
from the seeds in input order, sharing one visited set. Returns the court
list and the final visited set. (The `growLoop` fuel `|validIds| + 1`
covers every possible enqueue: each enqueued node is a fresh valid node.) -/
def detectFoodCourts (edges : List (List Nat)) (validIds : List Nat) (nodes : List Node)
    (R2 maxTiles : Nat) (centers : List (Nat × Nat)) : List FoodCourt × List Nat :=
  centers.foldl (detectStep edges validIds nodes R2 maxTiles) ([], [])

/-- `Plan.reservedFoodTiles`: the union of all accepted courts' tile sets
(`for (const t of tiles) reserved.add(t)`). -/
def reservedTiles (courts : List FoodCourt) : List Nat :=
  courts.foldl (fun acc fc => fc.tiles.foldl addTile acc) []

/-- Order-dependence example for the detector: a 22-tile corridor at
`y = 0` with a 3-tile spur at `(13..15, 1)`. Seed `(0,0)` reaches only 9
tiles (below the 20-tile floor) but poisons the shared visited set; seed
`(13,0)` alone reaches exactly 20 tiles. -/
def courtMapA : TileMap := fun x y =>
  if (y = 0 ∧ x ≤ 21) ∨ (y = 1 ∧ (x = 13 ∨ x = 14 ∨ x = 15)) then
    [⟨EType.footpath, false⟩] else []

def courtGraphA : Graph := buildPathGraph courtMapA 22 2

/-- Two-court example: two 10×2 blocks joined by a corridor along `y = 0`.
Seeds `(5,0)` and `(35,0)` yield two disjoint courts (24 and 23 tiles);
the corridor tiles `x = 14..26` remain as the zoning candidate pool. -/
def courtMapB : TileMap := fun x y =>
  if (y = 0 ∧ x ≤ 39) ∨ (y = 1 ∧ (x ≤ 9 ∨ (30 ≤ x ∧ x ≤ 39))) then
    [⟨EType.footpath, false⟩] else []

def courtGraphB : Graph := buildPathGraph courtMapB 40 2

/-- The two-court detection run on `courtGraphB`. -/
def courtsB : List FoodCourt × List Nat :=
  detectFoodCourts courtGraphB.edges courtGraphB.validIds courtGraphB.nodes 64 160
    [(5, 0), (35, 0)]

/-! ## Balanced handyman zoning (`balancedFlood` and friends) -/

/-- JS `Math.round(a / b)` for non-negative operands: `⌊(2a + b) / 2b⌋`. -/
def jsRound (a b : Nat) : Nat := (2 * a + b) / (2 * b)

/-- `centroidOfTiles`: rounded mean of the member coordinates. -/
def centroidOfTiles (nodes : List Node) (set : List Nat) : Nat × Nat :=
  let sx := set.foldl (fun acc id => acc + (nodes.getD id ⟨0, 0, 0, false⟩).x) 0
  let sy := set.foldl (fun acc id => acc + (nodes.getD id ⟨0, 0, 0, false⟩).y) 0
  (jsRound sx set.length, jsRound sy set.length)

/-- Manhattan distance `Math.abs(ax-bx) + Math.abs(ay-by)`. -/
def manh (a b : Nat × Nat) : Nat :=
  ((a.1 : Int) - b.1).natAbs + ((a.2 : Int) - b.2).natAbs

/-- One zone inspection of `nearestZoneIndex`: skip empty zones, keep a
strictly improving `(best, bestd)`. -/
def nzStep (nodes : List Node) (zones : List (List Nat)) (n : Node)
    (st : Int × Nat) (i : Nat) : Int × Nat :=
  if (zones.getD i []).length = 0 then st
  else
    let c := centroidOfTiles nodes (zones.getD i [])
    let d := manh c (n.x, n.y)
    if d < st.2 then ((i : Int), d) else st

/-- `nearestZoneIndex`: index of the non-empty zone with the
Manhattan-closest centroid, `-1` if none qualifies (strict improvement on
a `1e9` initial best keeps the first minimiser). -/
def nearestZoneIndex (nodes : List Node) (zones : List (List Nat)) (id : Nat) : Int :=
  ((List.range zones.length).foldl
    (nzStep nodes zones (nodes.getD id ⟨0, 0, 0, false⟩)) (-1, INF)).1

/-- The neighbour scan of one dequeued frontier tile: claim unclaimed valid
neighbours for zone `i`, breaking out as soon as the zone reaches its
target. State is `(zone, next, claimed, progressed)`. -/
def claimNbs (validSet : List Nat) (target : Nat) :
    List Nat → List Nat → List Nat → List Nat → Bool →
    List Nat × List Nat × List Nat × Bool
  | [], z, nx, cl, pr => (z, nx, cl, pr)
  | nb :: nbs, z, nx, cl, pr =>
      if validSet.contains nb && !cl.contains nb then
        let z' := addTile z nb
        let cl' := cl ++ [nb]
        let nx' := nx ++ [nb]
        if target ≤ z'.length then (z', nx', cl', true)
        else claimNbs validSet target nbs z' nx' cl' true
      else claimNbs validSet target nbs z nx cl pr

/-- One zone's inner wave loop
(`while (wave.length && zones[i].size < target)`); the unprocessed wave
remainder is dropped when the target is reached mid-wave. -/
def innerWave (edges : List (List Nat)) (validSet : List Nat) (target : Nat) :
    List Nat → List Nat → List Nat → List Nat → Bool →
    List Nat × List Nat × List Nat × Bool
  | [], z, nx, cl, pr => (z, nx, cl, pr)
  | v :: wv, z, nx, cl, pr =>
      if z.length < target then
        let r := claimNbs validSet target (edges.getD v []) z nx cl pr
        innerWave edges validSet target wv r.1 r.2.1 r.2.2.1 r.2.2.2
      else (z, nx, cl, pr)

/-- State of the simultaneous multi-source flood. -/
structure FloodState where
  zones : List (List Nat)
  frontier : List (List Nat)
  claimed : List Nat
  progressed : Bool

/-- One zone's turn within a round: zones already at target are skipped
(`if (zones[i].size >= target) continue`); otherwise the zone consumes its
frontier and installs the next-round frontier. -/
def roundStep (edges : List (List Nat)) (validSet : List Nat) (target : Nat)
    (st : FloodState) (i : Nat) : FloodState :=
  if target ≤ (st.zones.getD i []).length then st
  else
    let r := innerWave edges validSet target (st.frontier.getD i [])
      (st.zones.getD i []) [] st.claimed st.progressed
    ⟨st.zones.set i r.1, st.frontier.set i r.2.1, r.2.2.1, r.2.2.2⟩

/-- One synchronous round over all zones. -/
def roundPass (edges : List (List Nat)) (validSet : List Nat) (target k : Nat)
    (st : FloodState) : FloodState :=
  (List.range k).foldl (roundStep edges validSet target) st

/-- The `while(true)` round loop: stop when a round makes no progress or
every zone met its target. -/
def roundsLoop (edges : List (List Nat)) (validSet : List Nat) (target k : Nat) :
    Nat → FloodState → FloodState
  | 0, st => st
  | fuel + 1, st =>
      let st' := roundPass edges validSet target k ⟨st.zones, st.frontier, st.claimed, false⟩
      if !st'.progressed then st'
      else if st'.zones.all fun z => target ≤ z.length then st'
      else roundsLoop edges validSet target k fuel st'

/-- Claiming of one seed (index, id): seeds found in the candidate set are
added to their zone and marked claimed; others are skipped. -/
def initStep (validSet : List Nat) (p : List (List Nat) × List Nat)
    (is : Nat × Nat) : List (List Nat) × List Nat :=
  if validSet.contains is.2 then
    (p.1.set is.1 ((p.1.getD is.1 []) ++ [is.2]), p.2 ++ [is.2])
  else p

/-- Seed claiming of `balancedFlood`: one empty zone and one singleton
frontier per seed. -/
def initFlood (validSet seeds : List Nat) : FloodState :=
  let zc := seeds.enum.foldl (initStep validSet) (seeds.map fun _ => ([] : List Nat), [])
  ⟨zc.1, seeds.map fun s => [s], zc.2, false⟩

/-- One leftover tile: add it to the Manhattan-nearest zone, skipped only
when `nearestZoneIndex` yields `-1`. -/
def assignStep (nodes : List Node) (zs : List (List Nat)) (id : Nat) : List (List Nat) :=
  let z := nearestZoneIndex nodes zs id
  if 0 ≤ z then zs.set z.toNat (addTile (zs.getD z.toNat []) id) else zs

/-- Leftover assignment: every candidate tile never claimed is added to the
zone with the Manhattan-closest centroid (recomputed against the evolving
zone list). -/
def assignRemaining (nodes : List Node) (validSet : List Nat)
    (zones : List (List Nat)) (claimed : List Nat) : List (List Nat) :=
  (validSet.filter fun id => !claimed.contains id).foldl (assignStep nodes) zones

/-- `balancedFlood(validSet, seeds, target)`: seed claiming, synchronous
growth rounds, then leftover assignment. (Each progressed round claims at
least one new tile, so `|validSet| + 1` rounds of fuel always reach the
loop's own exit condition.) -/
def balancedFlood (nodes : List Node) (edges : List (List Nat))
    (validSet seeds : List Nat) (target : Nat) : List (List Nat) :=
  let st := roundsLoop edges validSet target seeds.length (validSet.length + 1)
    (initFlood validSet seeds)
  assignRemaining nodes validSet st.zones st.claimed

/-! ## Dead-end rescue (`rescueDeadEnds`) -/

/-- Union of all zone tile sets (the `valid` set rescue recomputes). -/
def zonesUnion (zones : List (List Nat)) : List Nat :=
  zones.foldl (fun acc z => z.foldl addTile acc) []

/-- One leaf of the rescue pass: if the leaf belongs to no zone, attach it
to the zone of its first zoned neighbour (first neighbour in edge order,
first zone in index order). -/
def rescueStep (edges : List (List Nat)) (zs : List (List Nat)) (leaf : Nat) :
    List (List Nat) :=
  if zs.any fun z => z.contains leaf then zs
  else
    match (edges.getD leaf []).findSome? (fun nb =>
        (List.range zs.length).find? fun zi => (zs.getD zi []).contains nb) with
    | some zi => zs.set zi (addTile (zs.getD zi []) leaf)
    | none => zs

/-- `rescueDeadEnds`: recompute the degree over the union of all zoned
tiles, collect the leaves (degree ≤ 1), and process each. -/
def rescueDeadEnds (edges : List (List Nat)) (zones : List (List Nat)) :
    List (List Nat) :=
  let valid := zonesUnion zones
  let leaves := valid.filter fun id => decide (degValid edges valid id ≤ 1)
  leaves.foldl (rescueStep edges) zones

/-! ## Prim tree construction (`buildMechanicRoutes`, lines 845-858) -/

/-- One candidate inspection of the Prim edge search: skip members already
in the tree, keep a strictly improving `(best, bestw)`. -/
def scanPair (dist : Nat → Nat → Nat) (used : List Nat)
    (st : Option (Nat × Nat) × Nat) (p : Nat × Nat) : Option (Nat × Nat) × Nat :=
  if used.contains p.2 then st
  else if dist p.1 p.2 < st.2 then (some p, dist p.1 p.2) else st

/-- The `for (u of used) for (v of c)` candidate enumeration. -/
def crossPairs (used c : List Nat) : List (Nat × Nat) :=
  used.flatMap fun u => c.map fun v => (u, v)

/-- The inner best-edge search of the Prim loop, starting from
`best = null, bestw = 1e9`. -/
def findBest (dist : Nat → Nat → Nat) (used c : List Nat) :
    Option (Nat × Nat) × Nat :=
  (crossPairs used c).foldl (scanPair dist used) (none, INF)

/-- The `while (used.size < c.length)` Prim loop: add the best cross edge,
extend the tree (`used` is a JS `Set` in insertion order), stop early when
no edge is found. `c.length` iterations of fuel always suffice since
`used` grows by one per iteration. -/
def primLoop (c : List Nat) (dist : Nat → Nat → Nat) : Nat → List Nat → List (Nat × Nat)
  | 0, _ => []
  | fuel + 1, used =>
      if used.length < c.length then
        match (findBest dist used c).1 with
        | some p => p :: primLoop c dist fuel (used ++ [p.2])
        | none => []
      else []

/-- The MST edge list built for one cluster (`used = new Set([c[0]])`). -/
def buildMstEdges (c : List Nat) (dist : Nat → Nat → Nat) : List (Nat × Nat) :=
  match c with
  | [] => []
  | c0 :: _ => primLoop c dist c.length [c0]

/-- Total distance-matrix weight of an edge list. -/
def weightSum (dist : Nat → Nat → Nat) (S : List (Nat × Nat)) : Nat :=
  S.foldl (fun acc e => acc + dist e.1 e.2) 0

/-- Undirected single-step adjacency of an edge list. -/
def EdgeRel (S : List (Nat × Nat)) (a b : Nat) : Prop := (a, b) ∈ S ∨ (b, a) ∈ S

/-- Connectivity via an edge list. -/
def Reach (S : List (Nat × Nat)) : Nat → Nat → Prop :=
  Relation.ReflTransGen (EdgeRel S)

/-- All edges of `S` join cluster members. -/
def memberEdges (c : List Nat) (S : List (Nat × Nat)) : Prop :=
  ∀ e ∈ S, e.1 ∈ c ∧ e.2 ∈ c

/-- `S` connects every pair of cluster members. -/
def Spans (c : List Nat) (S : List (Nat × Nat)) : Prop :=
  ∀ a ∈ c, ∀ b ∈ c, Reach S a b

/-- The weights of all spanning edge sets of the complete weighted graph on
the cluster members: the minimum of this set is the minimum-spanning-tree
weight (every spanning tree is such an edge set, and every such edge set
has weight at least that of some spanning tree). -/
def mstWeights (c : List Nat) (dist : Nat → Nat → Nat) : Set Nat :=
  {n | ∃ S, memberEdges c S ∧ Spans c S ∧ n = weightSum dist S}

/-- One-step relation used in the Prim optimality argument: an `S`-edge, or
a free move inside the already-built tree `U` (the contracted super-node). -/
def ConnVia (S : List (Nat × Nat)) (U : List Nat) (a b : Nat) : Prop :=
  EdgeRel S a b ∨ (a ∈ U ∧ b ∈ U)

/-- An `S`-edge step staying entirely outside `U`. -/
def OutStep (S : List (Nat × Nat)) (U : List Nat) (a b : Nat) : Prop :=
  EdgeRel S a b ∧ a ∉ U ∧ b ∉ U

/-- Remove one occurrence of an edge from an edge list. -/
def eraseEdge : List (Nat × Nat) → (Nat × Nat) → List (Nat × Nat)
  | [], _ => []
  | x :: xs, e => if x = e then xs else x :: eraseEdge xs e

/-- A concrete symmetric distance table used to exercise the Prim tree
builder. -/
def demoDist (u v : Nat) : Nat := 10 * min u v + max u v + 1

/-! ## Mechanic routing: BFS distances and the exit distance matrix -/

/-- An exit point as collected by `buildMechanicRoutes`
(`{nodeId, x, y, rideId, rideName}`; the ride data plays no role in the
routing computation and is omitted). -/
structure ExitPoint where
  nodeId : Nat
  x : Nat
  y : Nat
  deriving DecidableEq, Inhabited

/-- One neighbour visit of `bfsDistances`: skip non-valid and
already-distanced nodes, otherwise record `dist[nb] = dist[v]+1`,
`prev[nb] = v` and enqueue. State is `(dist, prev, queue)`. -/
def bfsStep (validIds : List Nat) (v : Nat)
    (st : (Nat → Option Nat) × (Nat → Option Nat) × List Nat) (nb : Nat) :
    (Nat → Option Nat) × (Nat → Option Nat) × List Nat :=
  if validIds.contains nb then
    match st.1 nb with
    | some _ => st
    | none =>
        (fun m => if m = nb then some ((st.1 v).getD 0 + 1) else st.1 m,
         fun m => if m = nb then some v else st.2.1 m,
         st.2.2 ++ [nb])
  else st

/-- The BFS `while(q.length)` loop (`q.shift()` is FIFO: the Lean list head
is the front of the JS array). -/
def bfsLoop (edges : List (List Nat)) (validIds : List Nat) :
    Nat → List Nat → (Nat → Option Nat) → (Nat → Option Nat) →
    (Nat → Option Nat) × (Nat → Option Nat)
  | 0, _, dist, prev => (dist, prev)
  | _ + 1, [], dist, prev => (dist, prev)
  | fuel + 1, v :: q, dist, prev =>
      let st := (edges.getD v []).foldl (bfsStep validIds v) (dist, prev, q)
      bfsLoop edges validIds fuel st.2.2 st.1 st.2.1

/-- `bfsDistances(startId)`: hop distances and predecessor links over the
valid subgraph. -/
def bfsDistances (edges : List (List Nat)) (validIds : List Nat) (startId fuel : Nat) :
    (Nat → Option Nat) × (Nat → Option Nat) :=
  bfsLoop edges validIds fuel [startId]
    (fun n => if n = startId then some 0 else none) (fun _ => none)

/-- One entry of the exit distance matrix: `d.dist[b] || 1e9` — an absent
*or zero* distance is replaced by the infinity sentinel, because `0` is
falsy in JS. -/
def distEntry (edges : List (List Nat)) (validIds : List Nat) (a b : Nat) : Nat :=
  match (bfsDistances edges validIds a (validIds.length + 1)).1 b with
  | none => INF
  | some 0 => INF
  | some (k + 1) => k + 1

/-- The full exit-pair distance matrix of `buildMechanicRoutes`. -/
def buildDistMatrix (edges : List (List Nat)) (validIds : List Nat)
    (exits : List ExitPoint) : List (List Nat) :=
  exits.map fun e => exits.map fun f => distEntry edges validIds e.nodeId f.nodeId

/-! ## KPI warnings (`computeKpis`, lines 963-977) -/

/-- The warnings block of `computeKpis`: coverage warning when the covered
ratio is below 100 % (the ratio is `0` when `validPathTiles` is `0`, since
`0` is falsy), a no-mechanic-clusters warning, and per-food-court staffing
warnings. `zones`, `mechClusters` and `courts` are the tile sets produced
by the preceding pipeline stages. -/
def computeWarnings (enableHandymen enableMechanics enableFoodCourts : Bool)
    (validPathTiles : Nat) (zones : List (List Nat))
    (mechClusters : List (List Nat)) (courts : List (List Nat))
    (tilesPerCleaner : Nat) : List String :=
  let covered := zones.foldl (fun acc z => acc + z.length) 0
  (if enableHandymen then
    let ratio := if validPathTiles ≠ 0 then jsRound (100 * covered) validPathTiles else 0
    if ratio < 100 then
      ["Coverage " ++ toString ratio ++ "%: some valid paths are not in a zone."]
    else []
  else []) ++
  (if enableMechanics then
    if mechClusters.length = 0 then ["No mechanic clusters detected (no ride exits?)."]
    else []
  else []) ++
  (if enableFoodCourts && !courts.isEmpty then
    courts.foldl (fun acc fc =>
      let need := max 1 ((fc.length + tilesPerCleaner - 1) / tilesPerCleaner)
      if 1 < need then
        acc ++ ["A food court is large (" ++ toString fc.length ++ " tiles). Recommend "
          ++ toString need ++ " cleaners."]
      else acc) []
  else [])

/-! ## Spec-side predicates for the zoning proofs -/

/-- Every tile of every zone lies in the candidate set. -/
def ZonesSub (validSet : List Nat) (zs : List (List Nat)) : Prop :=
  ∀ z ∈ zs, ∀ t ∈ z, t ∈ validSet

/-- `x` belongs to the zone stored at some index. -/
def Zoned (zs : List (List Nat)) (x : Nat) : Prop :=
  ∃ j, j < zs.length ∧ x ∈ zs.getD j []

/-! ## Theorems -/

lemma mem_pathCoords {m : TileMap} {W H x y : Nat} :
    (x, y) ∈ pathCoords m W H ↔ x < W ∧ y < H ∧ tileMakesNode (m x y) = true := by
  simp only [pathCoords, List.mem_flatMap, List.mem_map, List.mem_filter, List.mem_range]
  constructor
  · rintro ⟨x', hx', y', ⟨hy', hmk⟩, hEq⟩
    obtain ⟨rfl, rfl⟩ : x' = x ∧ y' = y := by
      exact ⟨(Prod.mk.injEq .. ▸ hEq).1, (Prod.mk.injEq .. ▸ hEq).2⟩
    exact ⟨hx', hy', hmk⟩
  · rintro ⟨hx, hy, hmk⟩
    exact ⟨x, hx, y, ⟨hy, hmk⟩, rfl⟩

lemma exists_node_iff_mem_pathCoords {m : TileMap} {W H x y : Nat} :
    (∃ n ∈ buildNodes m W H, n.x = x ∧ n.y = y) ↔ (x, y) ∈ pathCoords m W H := by
  constructor
  · rintro ⟨n, hn, hx, hy⟩
    simp only [buildNodes, List.mem_map] at hn
    obtain ⟨⟨i, p⟩, hip, rfl⟩ := hn
    have hp : p ∈ (pathCoords m W H).enum.map Prod.snd := List.mem_map_of_mem _ hip
    rw [List.enum_map_snd] at hp
    simpa [← hx, ← hy] using hp
  · intro hmem
    obtain ⟨i, hget⟩ := List.mem_iff_get.mp hmem
    refine ⟨{ id := i.1, x := x, y := y, attractor := tileIsAttractor (m x y) }, ?_, rfl, rfl⟩
    simp only [buildNodes, List.mem_map]
    refine ⟨(i.1, (x, y)), ?_, rfl⟩
    rw [List.mk_mem_enum_iff_getElem?]
    rw [List.getElem?_eq_getElem i.2]
    simp [← hget, List.get_eq_getElem]

/-- **C7.** For every tile `(x, y)` of the scanned grid, `buildPathGraph`
creates a node for it iff the tile carries at least one non-queue footpath
element and no queue-flagged footpath element; a tile carrying both a normal
path element and a queue-flagged element yields no node. -/
theorem buildPathGraph_node_iff (m : TileMap) (W H x y : Nat)
    (hx : x < W) (hy : y < H) :
    (∃ n ∈ (buildPathGraph m W H).nodes, n.x = x ∧ n.y = y) ↔
      ((∃ el ∈ m x y, el.etype = EType.footpath ∧ el.queued = false) ∧
        ∀ el ∈ m x y, el.etype = EType.footpath → el.queued = false) := by
  show (∃ n ∈ buildNodes m W H, n.x = x ∧ n.y = y) ↔ _
  rw [exists_node_iff_mem_pathCoords, mem_pathCoords]
  simp only [hx, hy, true_and]
  simp only [tileMakesNode, tileHasPath, tileIsQueue, Bool.and_eq_true,
    Bool.not_eq_true', List.any_eq_true, List.any_eq_false, beq_iff_eq]
  constructor
  · rintro ⟨⟨el, hel, hfp⟩, hnoq⟩
    have getq : ∀ e, e ∈ m x y → e.etype = EType.footpath → e.queued = false := by
      intro e he hfe
      have h := hnoq e he
      cases hq' : e.queued with
      | false => rfl
      | true => exact absurd (by simp [hfe, hq']) h
    exact ⟨⟨el, hel, hfp, getq el hel hfp⟩, getq⟩
  · rintro ⟨⟨el, hel, hfp, hq⟩, hall⟩
    refine ⟨⟨el, hel, hfp⟩, fun e he => ?_⟩
    by_cases hfe : e.etype = EType.footpath
    · simp [hfe, hall e he hfe]
    · simp [hfe]

/-- **C7 witness**: a tile with both a plain footpath and a queue-flagged
footpath yields no node, while a plain-footpath tile yields one. -/
theorem buildPathGraph_node_iff_witness :
    (1 : Nat) < 2 ∧ (0 : Nat) < 1 ∧
    ((∃ n ∈ (buildPathGraph
        (fun x _ => if x = 0 then [⟨EType.footpath, false⟩]
          else [⟨EType.footpath, false⟩, ⟨EType.footpath, true⟩]) 2 1).nodes,
        n.x = 1 ∧ n.y = 0) ↔
      ((∃ el ∈ [Element.mk EType.footpath false, Element.mk EType.footpath true],
          el.etype = EType.footpath ∧ el.queued = false) ∧
        ∀ el ∈ [Element.mk EType.footpath false, Element.mk EType.footpath true],
          el.etype = EType.footpath → el.queued = false)) :=
  ⟨by decide, by decide,
    buildPathGraph_node_iff
      (fun x _ => if x = 0 then [⟨EType.footpath, false⟩]
        else [⟨EType.footpath, false⟩, ⟨EType.footpath, true⟩]) 2 1 1 0
      (by decide) (by decide)⟩

/-- **C8.** For every input map on which the pruning pass removes all nodes
(ValidSet becomes empty), the plan's warnings list is non-empty under the
default settings: `validPathTiles` is 0, so the coverage ratio evaluates to
0 (the `0` is falsy in `ratio` computation) and the explicit coverage
warning is pushed. -/
theorem prune_empty_warns (m : TileMap) (W H fuel : Nat) (v : List Nat)
    (zones mechClusters courts : List (List Nat)) (tpc : Nat)
    (hprune : pruneScenery (buildPathGraph m W H) fuel = some v) (hv : v = []) :
    computeWarnings true true true v.length zones mechClusters courts tpc ≠ [] := by
  subst hv
  simp only [computeWarnings, List.length_nil, ne_eq, ite_not, if_pos rfl]
  intro h
  rw [if_pos (by norm_num)] at h
  simp at h

/-- **C8 witness**: a two-tile footpath corridor with no ride
entrance/exit anywhere prunes to the empty ValidSet, and the resulting
warnings list is non-empty. -/
theorem prune_empty_warns_witness :
    pruneScenery (buildPathGraph
        (fun x y => if y = 0 ∧ x < 2 then [⟨EType.footpath, false⟩] else []) 2 1) 50
      = some ([] : List Nat) ∧
    computeWarnings true true true ([] : List Nat).length [] [] [] 120 ≠ [] :=
  ⟨by decide,
    prune_empty_warns
      (fun x y => if y = 0 ∧ x < 2 then [⟨EType.footpath, false⟩] else []) 2 1 50 []
      [] [] [] 120 (by decide) rfl⟩

/-! ### The pruning invariant (C4) -/

lemma contains_true_iff {l : List Nat} {a : Nat} : l.contains a = true ↔ a ∈ l := by simp

lemma length_filter_contains_erase (valid : List Nat) (hv : valid.Nodup) (id : Nat)
    (hid : id ∈ valid) (L : List Nat) :
    (L.filter fun x => valid.contains x).length
      = (L.filter fun x => (valid.erase id).contains x).length + L.count id := by
  induction L with
  | nil => simp
  | cons a L ih =>
    by_cases ha : a = id
    · subst ha
      have h1 : valid.contains a = true := contains_true_iff.mpr hid
      have h2 : (valid.erase a).contains a = false := by
        rw [Bool.eq_false_iff]
        intro hc
        exact hv.not_mem_erase (contains_true_iff.mp hc)
      simp only [List.filter_cons, h1, if_pos, h2, Bool.false_eq_true, if_false,
        List.count_cons_self, List.length_cons, ih]
      omega
    · have hsame : (valid.erase id).contains a = valid.contains a := by
        by_cases hm : a ∈ valid
        · have : a ∈ valid.erase id := (List.mem_erase_of_ne ha).mpr hm
          rw [contains_true_iff.mpr hm, contains_true_iff.mpr this]
        · have : a ∉ valid.erase id := fun hc => hm (List.mem_of_mem_erase hc)
          rw [Bool.eq_iff_iff]
          simp [contains_true_iff, hm, this]
      rw [List.count_cons_of_ne (Ne.symm ha)]
      cases hva : valid.contains a with
      | true => simp only [List.filter_cons, hva, hsame, if_pos, List.length_cons, ih]; omega
      | false => simp only [List.filter_cons, hva, hsame, Bool.false_eq_true, if_false, ih]

lemma degValid_erase (edges : List (List Nat)) (valid : List Nat) (hv : valid.Nodup)
    (id : Nat) (hid : id ∈ valid) (w : Nat) :
    degValid edges valid w = degValid edges (valid.erase id) w + (edges.getD w []).count id :=
  length_filter_contains_erase valid hv id hid _

lemma pruneFold_spec (edges : List (List Nat)) (attr valid' : List Nat) :
    ∀ (E : List Nat), E.Nodup → ∀ (deg : Nat → Nat) (stack : List Nat),
      (∀ m, (E.foldl (pruneStep edges attr valid') (deg, stack)).1 m
          = if m ∈ E ∧ m ∈ valid' then deg m - 1 else deg m) ∧
      (∀ s ∈ stack, s ∈ (E.foldl (pruneStep edges attr valid') (deg, stack)).2) ∧
      (∀ nb ∈ E, nb ∈ valid' → deg nb - 1 ≤ 1 →
        adjAttr edges attr nb = false →
        nb ∈ (E.foldl (pruneStep edges attr valid') (deg, stack)).2) := by
  intro E
  induction E with
  | nil =>
    intro _ deg stack
    exact ⟨fun m => by simp, fun s hs => hs, fun nb hnb => absurd hnb (by simp)⟩
  | cons a E ih =>
    intro hnd deg stack
    have hna : a ∉ E := (List.nodup_cons.mp hnd).1
    have hndE : E.Nodup := (List.nodup_cons.mp hnd).2
    rw [List.foldl_cons]
    by_cases hva : a ∈ valid'
    · have hva' : valid'.contains a = true := contains_true_iff.mpr hva
      have hd1 : (pruneStep edges attr valid' (deg, stack) a).1
          = fun m => if m = a then deg a - 1 else deg m := by
        simp only [pruneStep, hva', if_pos]
        by_cases hc : (decide (deg a - 1 ≤ 1) && !adjAttr edges attr a) = true
        · rw [if_pos hc]
        · rw [if_neg hc]
      have hd2 : (pruneStep edges attr valid' (deg, stack) a).2 = a :: stack ∨
          (pruneStep edges attr valid' (deg, stack) a).2 = stack := by
        simp only [pruneStep, hva', if_pos]
        by_cases hc : (decide (deg a - 1 ≤ 1) && !adjAttr edges attr a) = true
        · rw [if_pos hc]; exact Or.inl rfl
        · rw [if_neg hc]; exact Or.inr rfl
      have hd3 : deg a - 1 ≤ 1 → adjAttr edges attr a = false →
          (pruneStep edges attr valid' (deg, stack) a).2 = a :: stack := by
        intro h1 h2
        simp only [pruneStep, hva', if_pos]
        rw [if_pos (by simp [h1, h2])]
      obtain ⟨ihdeg, ihmono, ihpush⟩ := ih hndE
        (pruneStep edges attr valid' (deg, stack) a).1
        (pruneStep edges attr valid' (deg, stack) a).2
      refine ⟨fun m => ?_, fun s hs => ?_, fun nb hnb hvnb hd hadj => ?_⟩
      · rw [ihdeg m, hd1]
        by_cases hma : m = a
        · subst hma
          simp [hna, hva]
        · by_cases hmE : m ∈ E ∧ m ∈ valid'
          · simp [hmE, hma, hmE.1, hmE.2]
          · have h2 : ¬(m ∈ a :: E ∧ m ∈ valid') := fun h =>
              hmE ⟨(List.mem_cons.mp h.1).resolve_left hma, h.2⟩
            simp only [if_neg hmE, if_neg h2, if_neg hma]
      · apply ihmono
        rcases hd2 with h | h
        · rw [h]; exact List.mem_cons_of_mem a hs
        · rw [h]; exact hs
      · rcases List.mem_cons.mp hnb with rfl | hnbE
        · apply ihmono
          rw [hd3 hd hadj]
          exact List.mem_cons_self nb stack
        · have hne : nb ≠ a := fun h => hna (h ▸ hnbE)
          refine ihpush nb hnbE hvnb ?_ hadj
          rw [hd1]
          simpa [hne] using hd
    · have hva' : valid'.contains a ≠ true := fun h => hva (contains_true_iff.mp h)
      have hstep : pruneStep edges attr valid' (deg, stack) a = (deg, stack) := by
        simp only [pruneStep]
        rw [if_neg hva']
      rw [hstep]
      obtain ⟨ihdeg, ihmono, ihpush⟩ := ih hndE deg stack
      refine ⟨fun m => ?_, ihmono, fun nb hnb hvnb hd hadj => ?_⟩
      · rw [ihdeg m]
        by_cases hma : m = a
        · subst hma
          rw [if_neg (fun h : m ∈ E ∧ _ => hna h.1),
            if_neg (fun h : m ∈ m :: E ∧ m ∈ valid' => hva h.2)]
        · by_cases hmE : m ∈ E ∧ m ∈ valid'
          · rw [if_pos hmE, if_pos ⟨List.mem_cons_of_mem a hmE.1, hmE.2⟩]
          · rw [if_neg hmE, if_neg
              (fun h : m ∈ a :: E ∧ m ∈ valid' =>
                hmE ⟨(List.mem_cons.mp h.1).resolve_left hma, h.2⟩)]
      · rcases List.mem_cons.mp hnb with rfl | hnbE
        · exact absurd hvnb hva
        · exact ihpush nb hnbE hvnb hd hadj

/-- Preservation of the pruning invariant by the removal branch. -/
lemma removeNode_inv (edges : List (List Nat)) (attr : List Nat)
    (hsym : ∀ i < edges.length, ∀ j ∈ edges.getD i [], i ∈ edges.getD j [])
    (hnodup : ∀ i < edges.length, (edges.getD i []).Nodup)
    (valid : List Nat) (deg : Nat → Nat) (stack : List Nat) (id : Nat)
    (hvn : valid.Nodup) (hbnd : ∀ i ∈ valid, i < edges.length)
    (hdeg : ∀ i ∈ valid, deg i = degValid edges valid i)
    (hstk : ∀ i ∈ valid, degValid edges valid i ≤ 1 →
      adjAttr edges attr i = false → i ∈ id :: stack)
    (hid : id ∈ valid) :
    (removeNode edges attr id valid deg stack).1.Nodup ∧
    (∀ i ∈ (removeNode edges attr id valid deg stack).1, i < edges.length) ∧
    (∀ i ∈ (removeNode edges attr id valid deg stack).1,
      (removeNode edges attr id valid deg stack).2.1 i
        = degValid edges (removeNode edges attr id valid deg stack).1 i) ∧
    (∀ i ∈ (removeNode edges attr id valid deg stack).1,
      degValid edges (removeNode edges attr id valid deg stack).1 i ≤ 1 →
      adjAttr edges attr i = false →
      i ∈ (removeNode edges attr id valid deg stack).2.2) := by
  have hidlen : id < edges.length := hbnd id hid
  have hEnd : (edges.getD id []).Nodup := hnodup id hidlen
  obtain ⟨fdeg, fmono, fpush⟩ :=
    pruneFold_spec edges attr (valid.erase id) (edges.getD id []) hEnd deg stack
  simp only [removeNode]
  have hmem' : ∀ w, w ∈ valid.erase id ↔ w ≠ id ∧ w ∈ valid := fun w => hvn.mem_erase_iff
  have hdegrel : ∀ w ∈ valid.erase id,
      degValid edges valid w
        = degValid edges (valid.erase id) w + (edges.getD w []).count id := fun w _ =>
    degValid_erase edges valid hvn id hid w
  have hcount : ∀ w ∈ valid.erase id,
      (edges.getD w []).count id = if w ∈ edges.getD id [] then 1 else 0 := by
    intro w hw
    have hwv : w ∈ valid := ((hmem' w).mp hw).2
    have hwlen : w < edges.length := hbnd w hwv
    by_cases hwE : w ∈ edges.getD id []
    · have : id ∈ edges.getD w [] := hsym id hidlen w hwE
      rw [if_pos hwE, List.count_eq_one_of_mem (hnodup w hwlen) this]
    · have : id ∉ edges.getD w [] := fun hc => hwE (hsym w hwlen id hc)
      rw [if_neg hwE, List.count_eq_zero_of_not_mem this]
  refine ⟨hvn.erase id, ?_, ?_, ?_⟩
  · intro i hi
    exact hbnd i (List.mem_of_mem_erase hi)
  · intro w hw
    have hwv : w ∈ valid := List.mem_of_mem_erase hw
    rw [fdeg w]
    by_cases hwE : w ∈ edges.getD id []
    · rw [if_pos ⟨hwE, hw⟩, hdeg w hwv]
      have := hdegrel w hw
      rw [hcount w hw, if_pos hwE] at this
      omega
    · rw [if_neg (fun h => hwE h.1), hdeg w hwv]
      have := hdegrel w hw
      rw [hcount w hw, if_neg hwE] at this
      omega
  · intro w hw hdw hadjw
    have hwv : w ∈ valid := List.mem_of_mem_erase hw
    by_cases hwE : w ∈ edges.getD id []
    · apply fpush w hwE hw _ hadjw
      rw [hdeg w hwv]
      have := hdegrel w hw
      rw [hcount w hw, if_pos hwE] at this
      omega
    · have heq : degValid edges valid w = degValid edges (valid.erase id) w := by
        have := hdegrel w hw
        rw [hcount w hw, if_neg hwE] at this
        omega
      have := hstk w hwv (heq ▸ hdw) hadjw
      rcases List.mem_cons.mp this with rfl | hrest
      · exact absurd rfl ((hmem' w).mp hw).1
      · exact fmono w hrest

/-- The pruning loop preserves the invariant and, on normal termination
(empty queue), yields a valid set in which every low-degree node is
attractor-adjacent. -/
lemma pruneLoop_inv (edges : List (List Nat)) (attr : List Nat)
    (hsym : ∀ i < edges.length, ∀ j ∈ edges.getD i [], i ∈ edges.getD j [])
    (hnodup : ∀ i < edges.length, (edges.getD i []).Nodup) :
    ∀ (fuel : Nat) (valid : List Nat) (deg : Nat → Nat) (stack : List Nat) (v : List Nat),
      valid.Nodup → (∀ i ∈ valid, i < edges.length) →
      (∀ i ∈ valid, deg i = degValid edges valid i) →
      (∀ i ∈ valid, degValid edges valid i ≤ 1 →
        adjAttr edges attr i = false → i ∈ stack) →
      pruneLoop edges attr fuel valid deg stack = some v →
      ∀ i ∈ v, degValid edges v i ≤ 1 → adjAttr edges attr i = true := by
  intro fuel
  induction fuel with
  | zero =>
    intro valid deg stack v hvn hbnd hdeg hstk hrun
    cases stack with
    | nil =>
      simp only [pruneLoop, Option.some.injEq] at hrun
      subst hrun
      intro i hi hdi
      cases hadj : adjAttr edges attr i with
      | true => rfl
      | false => exact absurd (hstk i hi hdi hadj) (List.not_mem_nil i)
    | cons a rest => simp [pruneLoop] at hrun
  | succ fuel ih =>
    intro valid deg stack v hvn hbnd hdeg hstk hrun
    cases stack with
    | nil =>
      simp only [pruneLoop, Option.some.injEq] at hrun
      subst hrun
      intro i hi hdi
      cases hadj : adjAttr edges attr i with
      | true => rfl
      | false => exact absurd (hstk i hi hdi hadj) (List.not_mem_nil i)
    | cons a rest =>
      rw [pruneLoop] at hrun
      by_cases hmema : valid.contains a = true
      · rw [hmema] at hrun
        simp only [Bool.not_true, Bool.false_eq_true, if_false] at hrun
        by_cases hadja : adjAttr edges attr a = true
        · rw [if_pos hadja] at hrun
          refine ih valid deg rest v hvn hbnd hdeg ?_ hrun
          intro i hi hdi hadji
          rcases List.mem_cons.mp (hstk i hi hdi hadji) with rfl | h
          · rw [hadja] at hadji; exact absurd hadji (by simp)
          · exact h
        · rw [if_neg hadja] at hrun
          obtain ⟨h1, h2, h3, h4⟩ :=
            removeNode_inv edges attr hsym hnodup valid deg rest a hvn hbnd hdeg hstk
              (contains_true_iff.mp hmema)
          exact ih _ _ _ v h1 h2 h3 h4 hrun
      · have hfalse : valid.contains a = false := by
          cases h : valid.contains a with
          | false => rfl
          | true => exact absurd h hmema
        rw [hfalse] at hrun
        simp only [Bool.not_false, if_pos] at hrun
        refine ih valid deg rest v hvn hbnd hdeg ?_ hrun
        intro i hi hdi hadji
        rcases List.mem_cons.mp (hstk i hi hdi hadji) with rfl | h
        · have hit : valid.contains i = true := contains_true_iff.mpr hi
          rw [hfalse] at hit
          exact absurd hit (by simp)
        · exact h

/-- **C4.** After the pruning pass terminates, every node id remaining in
the ValidSet whose degree within the remaining set is at most 1 is an
attractor or has a graph neighbour that is an attractor (i.e. it is
attractor-adjacent). Stated for any well-formed symmetric graph. -/
theorem prune_low_degree_attractor_adjacent (edges : List (List Nat)) (attr : List Nat)
    (valid₀ : List Nat) (fuel : Nat) (v : List Nat)
    (hsym : ∀ i < edges.length, ∀ j ∈ edges.getD i [], i ∈ edges.getD j [])
    (hnodup : ∀ i < edges.length, (edges.getD i []).Nodup)
    (hvn : valid₀.Nodup) (hbnd : ∀ i ∈ valid₀, i < edges.length)
    (hrun : pruneFrom edges attr valid₀ fuel = some v) :
    ∀ i ∈ v, degValid edges v i ≤ 1 → adjAttr edges attr i = true := by
  refine pruneLoop_inv edges attr hsym hnodup fuel valid₀ _ _ v hvn hbnd
    (fun i _ => rfl) ?_ hrun
  intro i hi hdi hadji
  simp only [initQueue, List.mem_reverse, List.mem_filter]
  exact ⟨hi, by simp [hdi, hadji]⟩

/-- **C4 witness**: the corridor graph satisfies the well-formedness
hypotheses, prunes to `[8, 9]`, and the invariant holds there. -/
theorem prune_low_degree_attractor_adjacent_witness :
    (∀ i < corridorGraph.edges.length,
      ∀ j ∈ corridorGraph.edges.getD i [], i ∈ corridorGraph.edges.getD j []) ∧
    (∀ i < corridorGraph.edges.length, (corridorGraph.edges.getD i []).Nodup) ∧
    corridorGraph.validIds.Nodup ∧
    (∀ i ∈ corridorGraph.validIds, i < corridorGraph.edges.length) ∧
    (∀ i ∈ [8, 9], degValid corridorGraph.edges [8, 9] i ≤ 1 →
      adjAttr corridorGraph.edges corridorGraph.attractorIds i = true) :=
  ⟨by decide, by decide, by decide, by decide,
    prune_low_degree_attractor_adjacent corridorGraph.edges corridorGraph.attractorIds
      corridorGraph.validIds 100 [8, 9] (by decide) (by decide) (by decide) (by decide)
      (by decide)⟩

/-! ### The dead-end rescue pass is a no-op (C2) -/

lemma mem_addTile {z : List Nat} {t x : Nat} : x ∈ addTile z t ↔ x ∈ z ∨ x = t := by
  by_cases h : t ∈ z
  · rw [addTile, if_pos (contains_true_iff.mpr h)]
    constructor
    · exact Or.inl
    · rintro (hx | rfl)
      · exact hx
      · exact h
  · rw [addTile, if_neg fun hc => h (contains_true_iff.mp hc)]
    simp

lemma mem_foldl_addTile : ∀ (z acc : List Nat) (x : Nat),
    x ∈ z.foldl addTile acc ↔ x ∈ acc ∨ x ∈ z := by
  intro z
  induction z with
  | nil => simp
  | cons a z ih =>
    intro acc x
    rw [List.foldl_cons, ih, mem_addTile]
    simp [List.mem_cons]
    tauto

lemma mem_zonesUnion {zones : List (List Nat)} {x : Nat} :
    x ∈ zonesUnion zones ↔ ∃ z ∈ zones, x ∈ z := by
  suffices h : ∀ (zs : List (List Nat)) (acc : List Nat),
      x ∈ zs.foldl (fun acc z => z.foldl addTile acc) acc ↔ x ∈ acc ∨ ∃ z ∈ zs, x ∈ z by
    rw [zonesUnion, h]
    simp
  intro zs
  induction zs with
  | nil => simp
  | cons z zs ih =>
    intro acc
    rw [List.foldl_cons, ih, mem_foldl_addTile]
    constructor
    · rintro ((h | h) | ⟨w, hw, hx⟩)
      · exact Or.inl h
      · exact Or.inr ⟨z, List.mem_cons_self z zs, h⟩
      · exact Or.inr ⟨w, List.mem_cons_of_mem z hw, hx⟩
    · rintro (h | ⟨w, hw, hx⟩)
      · exact Or.inl (Or.inl h)
      · rcases List.mem_cons.mp hw with rfl | hw'
        · exact Or.inl (Or.inr hx)
        · exact Or.inr ⟨w, hw', hx⟩

lemma rescueStep_mem_noop {edges : List (List Nat)} {zs : List (List Nat)} {leaf : Nat}
    (h : ∃ z ∈ zs, leaf ∈ z) : rescueStep edges zs leaf = zs := by
  obtain ⟨z, hz, hl⟩ := h
  have : (zs.any fun z => z.contains leaf) = true :=
    List.any_eq_true.mpr ⟨z, hz, contains_true_iff.mpr hl⟩
  rw [rescueStep, if_pos this]

/-- **C2.** For every list of zones, the dead-end rescue pass leaves every
zone's tile set unchanged: the leaves it examines are drawn from the union
of tiles already belonging to some zone, so its "not in any zone" branch
never fires and no tile is ever attached to any zone. -/
theorem rescue_dead_ends_noop (edges : List (List Nat)) (zones : List (List Nat)) :
    rescueDeadEnds edges zones = zones := by
  rw [rescueDeadEnds]
  have key : ∀ (L : List Nat), (∀ l ∈ L, ∃ z ∈ zones, l ∈ z) →
      L.foldl (rescueStep edges) zones = zones := by
    intro L
    induction L with
    | nil => intro _; rfl
    | cons l L ih =>
      intro h
      rw [List.foldl_cons, rescueStep_mem_noop (h l (List.mem_cons_self l L))]
      exact ih fun l' hl' => h l' (List.mem_cons_of_mem l hl')
  refine key _ fun l hl => ?_
  have : l ∈ zonesUnion zones := (List.mem_filter.mp hl).1
  exact mem_zonesUnion.mp this

/-! ### Food-court growth invariants (C6, C10) -/

lemma growVisit_inv (validIds : List Nat) (nodes : List Node) (cx cy R2 : Nat)
    (V₀ : List Nat) (st : List Nat × List Nat) (nb : Nat)
    (h1 : ∀ x ∈ V₀, x ∈ st.1) (h2 : ∀ x ∈ st.2, x ∈ st.1 ∧ x ∉ V₀) :
    (∀ x ∈ V₀, x ∈ (growVisit validIds nodes cx cy R2 st nb).1) ∧
    (∀ x ∈ (growVisit validIds nodes cx cy R2 st nb).2,
      x ∈ (growVisit validIds nodes cx cy R2 st nb).1 ∧ x ∉ V₀) ∧
    (∀ x ∈ st.1, x ∈ (growVisit validIds nodes cx cy R2 st nb).1) := by
  by_cases hc : (validIds.contains nb && !st.1.contains nb
      && inRadius nodes cx cy R2 nb) = true
  · rw [growVisit, if_pos hc]
    rw [Bool.and_eq_true, Bool.and_eq_true] at hc
    obtain ⟨⟨_, hnotin⟩, _⟩ := hc
    have hnb : nb ∉ st.1 := fun hm => by
      rw [contains_true_iff.mpr hm] at hnotin
      exact absurd hnotin (by simp)
    refine ⟨fun x hx => List.mem_append_left _ (h1 x hx), fun x hx => ?_,
      fun x hx => List.mem_append_left _ hx⟩
    rcases List.mem_append.mp hx with hx | hx
    · exact ⟨List.mem_append_left _ (h2 x hx).1, (h2 x hx).2⟩
    · obtain rfl : x = nb := by simpa using hx
      exact ⟨List.mem_append_right _ (by simp), fun hV => hnb (h1 x hV)⟩
  · rw [growVisit, if_neg hc]
    exact ⟨h1, h2, fun x hx => hx⟩

lemma growFold_inv (validIds : List Nat) (nodes : List Node) (cx cy R2 : Nat)
    (V₀ : List Nat) :
    ∀ (E : List Nat) (st : List Nat × List Nat),
      (∀ x ∈ V₀, x ∈ st.1) → (∀ x ∈ st.2, x ∈ st.1 ∧ x ∉ V₀) →
      (∀ x ∈ V₀, x ∈ (E.foldl (growVisit validIds nodes cx cy R2) st).1) ∧
      (∀ x ∈ (E.foldl (growVisit validIds nodes cx cy R2) st).2,
        x ∈ (E.foldl (growVisit validIds nodes cx cy R2) st).1 ∧ x ∉ V₀) ∧
      (∀ x ∈ st.1, x ∈ (E.foldl (growVisit validIds nodes cx cy R2) st).1) := by
  intro E
  induction E with
  | nil => intro st h1 h2; exact ⟨h1, h2, fun x hx => hx⟩
  | cons a E ih =>
    intro st h1 h2
    rw [List.foldl_cons]
    obtain ⟨g1, g2, g3⟩ := growVisit_inv validIds nodes cx cy R2 V₀ st a h1 h2
    obtain ⟨i1, i2, i3⟩ := ih _ g1 g2
    exact ⟨i1, i2, fun x hx => i3 x (g3 x hx)⟩

lemma growLoop_inv (edges : List (List Nat)) (validIds : List Nat) (nodes : List Node)
    (cx cy R2 maxTiles : Nat) (V₀ : List Nat) :
    ∀ (fuel : Nat) (q vis tiles : List Nat),
      (∀ x ∈ V₀, x ∈ vis) → (∀ x ∈ q, x ∈ vis ∧ x ∉ V₀) →
      (∀ x ∈ tiles, x ∈ vis ∧ x ∉ V₀) →
      (∀ x ∈ V₀, x ∈ (growLoop edges validIds nodes cx cy R2 maxTiles fuel q vis tiles).2) ∧
      (∀ x ∈ (growLoop edges validIds nodes cx cy R2 maxTiles fuel q vis tiles).1,
        x ∈ (growLoop edges validIds nodes cx cy R2 maxTiles fuel q vis tiles).2 ∧ x ∉ V₀) ∧
      (∀ x ∈ vis, x ∈ (growLoop edges validIds nodes cx cy R2 maxTiles fuel q vis tiles).2) := by
  intro fuel
  induction fuel with
  | zero => intro q vis tiles h1 h2 h3; exact ⟨h1, h3, fun x hx => hx⟩
  | succ fuel ih =>
    intro q vis tiles h1 h2 h3
    cases q with
    | nil => exact ⟨h1, h3, fun x hx => hx⟩
    | cons v q =>
      rw [growLoop]
      by_cases hcap : tiles.length < maxTiles
      · rw [if_pos hcap]
        obtain ⟨f1, f2, f3⟩ := growFold_inv validIds nodes cx cy R2 V₀
          (edges.getD v []) (vis, q) h1 (fun x hx => h2 x (List.mem_cons_of_mem v hx))
        have htiles' : ∀ x ∈ (if tiles.contains v then tiles else tiles ++ [v]),
            x ∈ ((edges.getD v []).foldl (growVisit validIds nodes cx cy R2) (vis, q)).1
              ∧ x ∉ V₀ := by
          intro x hx
          by_cases hvt : tiles.contains v = true
          · rw [if_pos hvt] at hx
            exact ⟨f3 x (h3 x hx).1, (h3 x hx).2⟩
          · rw [if_neg hvt] at hx
            rcases List.mem_append.mp hx with hx | hx
            · exact ⟨f3 x (h3 x hx).1, (h3 x hx).2⟩
            · obtain rfl : x = v := by simpa using hx
              exact ⟨f3 x (h2 x (List.mem_cons_self x q)).1,
                (h2 x (List.mem_cons_self x q)).2⟩
        obtain ⟨i1, i2, i3⟩ := ih _ _ _ f1 f2 htiles'
        exact ⟨i1, i2, fun x hx => i3 x (f3 x hx)⟩
      · rw [if_neg hcap]
        exact ⟨h1, h3, fun x hx => hx⟩

/-- One seed: the visited set only grows, surviving courts' tiles stay
inside it, and any newly produced court is disjoint from the visited set
as it stood when the seed was taken up. -/
lemma detectStep_inv (edges : List (List Nat)) (validIds : List Nat) (nodes : List Node)
    (R2 maxTiles : Nat) (st : List FoodCourt × List Nat) (c : Nat × Nat)
    (hsub : ∀ fc ∈ st.1, ∀ t ∈ fc.tiles, t ∈ st.2) :
    (∀ x ∈ st.2, x ∈ (detectStep edges validIds nodes R2 maxTiles st c).2) ∧
    (∀ fc ∈ (detectStep edges validIds nodes R2 maxTiles st c).1,
      ∀ t ∈ fc.tiles, t ∈ (detectStep edges validIds nodes R2 maxTiles st c).2) ∧
    ((detectStep edges validIds nodes R2 maxTiles st c).1 = st.1 ∨
      ∃ fc, (detectStep edges validIds nodes R2 maxTiles st c).1 = st.1 ++ [fc] ∧
        ∀ t ∈ fc.tiles, t ∉ st.2) := by
  cases hn : nodeIdAt nodes c.1 c.2 with
  | none =>
    simp only [detectStep, hn]
    exact ⟨fun x hx => hx, hsub, Or.inl (by simp)⟩
  | some nid =>
    by_cases hv : validIds.contains nid = true
    · by_cases hvis : st.2.contains nid = true
      · simp only [detectStep, hn, hv, hvis, Bool.not_true, Bool.false_eq_true, if_false,
          if_pos]
        exact ⟨fun x hx => hx, hsub, Or.inl (by simp)⟩
      · have hvis' : st.2.contains nid = false := by
          cases h : st.2.contains nid with
          | false => rfl
          | true => exact absurd h hvis
        have hnidV : nid ∉ st.2 := fun hm => by
          rw [contains_true_iff.mpr hm] at hvis'
          exact absurd hvis' (by simp)
        simp only [detectStep, hn, hv, hvis', Bool.not_true, Bool.false_eq_true, if_false]
        obtain ⟨g1, g2, g3⟩ := growLoop_inv edges validIds nodes c.1 c.2 R2 maxTiles st.2
          (validIds.length + 1) [nid] (st.2 ++ [nid]) []
          (fun x hx => List.mem_append_left _ hx)
          (fun x hx => by
            obtain rfl : x = nid := by simpa using hx
            exact ⟨List.mem_append_right _ (by simp), hnidV⟩)
          (fun x hx => absurd hx (List.not_mem_nil x))
        by_cases hacc : 20 ≤ (growLoop edges validIds nodes c.1 c.2 R2 maxTiles
            (validIds.length + 1) [nid] (st.2 ++ [nid]) []).1.length
        · rw [if_pos hacc]
          refine ⟨fun x hx => g1 x hx, fun fc hfc t ht => ?_, Or.inr ⟨_, rfl, ?_⟩⟩
          · rcases List.mem_append.mp hfc with hfc | hfc
            · exact g3 t (List.mem_append_left _ (hsub fc hfc t ht))
            · obtain rfl : fc = _ := by simpa using hfc
              exact (g2 t ht).1
          · intro t ht
            exact (g2 t ht).2
        · rw [if_neg hacc]
          exact ⟨fun x hx => g1 x hx, fun fc hfc t ht =>
            g3 t (List.mem_append_left _ (hsub fc hfc t ht)), Or.inl rfl⟩
    · have hv' : validIds.contains nid = false := by
        cases h : validIds.contains nid with
        | false => rfl
        | true => exact absurd h hv
      simp only [detectStep, hn, hv', Bool.not_false, if_pos]
      exact ⟨fun x hx => hx, hsub, Or.inl (by simp)⟩

/-- The whole detection fold: the visited set only grows, and every court
produced during the fold (beyond those already present) is disjoint from
the starting visited set. -/
lemma detectFold_inv (edges : List (List Nat)) (validIds : List Nat) (nodes : List Node)
    (R2 maxTiles : Nat) :
    ∀ (centers : List (Nat × Nat)) (st : List FoodCourt × List Nat),
      (∀ fc ∈ st.1, ∀ t ∈ fc.tiles, t ∈ st.2) →
      (∀ x ∈ st.2,
        x ∈ (centers.foldl (detectStep edges validIds nodes R2 maxTiles) st).2) ∧
      (∀ fc ∈ (centers.foldl (detectStep edges validIds nodes R2 maxTiles) st).1,
        ∀ t ∈ fc.tiles,
          t ∈ (centers.foldl (detectStep edges validIds nodes R2 maxTiles) st).2) ∧
      (∃ new, (centers.foldl (detectStep edges validIds nodes R2 maxTiles) st).1
          = st.1 ++ new ∧ ∀ fc ∈ new, ∀ t ∈ fc.tiles, t ∉ st.2) := by
  intro centers
  induction centers with
  | nil => intro st hsub; exact ⟨fun x hx => hx, hsub, ⟨[], by simp, by simp⟩⟩
  | cons c centers ih =>
    intro st hsub
    rw [List.foldl_cons]
    obtain ⟨s1, s2, s3⟩ := detectStep_inv edges validIds nodes R2 maxTiles st c hsub
    obtain ⟨i1, i2, i3⟩ := ih _ s2
    refine ⟨fun x hx => i1 x (s1 x hx), i2, ?_⟩
    obtain ⟨new2, hnew2, hdis2⟩ := i3
    rcases s3 with heq | ⟨fc, heq, hdis⟩
    · exact ⟨new2, by rw [hnew2, heq], fun fc hfc t ht hV =>
        hdis2 fc hfc t ht (s1 t hV)⟩
    · refine ⟨fc :: new2, by rw [hnew2, heq]; simp, ?_⟩
      intro fc' hfc' t ht hV
      rcases List.mem_cons.mp hfc' with rfl | hfc'
      · exact hdis t ht hV
      · exact hdis2 fc' hfc' t ht (s1 t hV)

lemma detectFold_pairwise (edges : List (List Nat)) (validIds : List Nat)
    (nodes : List Node) (R2 maxTiles : Nat) :
    ∀ (centers : List (Nat × Nat)) (st : List FoodCourt × List Nat),
      (∀ fc ∈ st.1, ∀ t ∈ fc.tiles, t ∈ st.2) →
      st.1.Pairwise (fun a b => ∀ t ∈ a.tiles, t ∉ b.tiles) →
      (centers.foldl (detectStep edges validIds nodes R2 maxTiles) st).1.Pairwise
        (fun a b => ∀ t ∈ a.tiles, t ∉ b.tiles) := by
  intro centers
  induction centers with
  | nil => intro st _ hp; exact hp
  | cons c centers ih =>
    intro st hsub hp
    rw [List.foldl_cons]
    obtain ⟨s1, s2, s3⟩ := detectStep_inv edges validIds nodes R2 maxTiles st c hsub
    refine ih _ s2 ?_
    rcases s3 with heq | ⟨fc, heq, hdis⟩
    · rw [heq]; exact hp
    · rw [heq, List.pairwise_append]
      refine ⟨hp, by simp, fun a ha b hb => ?_⟩
      obtain rfl : b = fc := by simpa using hb
      intro t hta htb
      exact hdis t htb (hsub a ha t hta)

/-! ### Flood zones stay inside the candidate set (C3, C6) -/

lemma claimNbs_zone_sub (validSet : List Nat) (target : Nat) :
    ∀ (nbs z nx cl : List Nat) (pr : Bool),
      (∀ t ∈ z, t ∈ validSet) →
      ∀ t ∈ (claimNbs validSet target nbs z nx cl pr).1, t ∈ validSet := by
  intro nbs
  induction nbs with
  | nil => intro z nx cl pr hz; exact hz
  | cons nb nbs ih =>
    intro z nx cl pr hz
    simp only [claimNbs]
    by_cases hc : (validSet.contains nb && !cl.contains nb) = true
    · rw [if_pos hc]
      rw [Bool.and_eq_true] at hc
      have hnb : nb ∈ validSet := contains_true_iff.mp hc.1
      have hz' : ∀ t ∈ addTile z nb, t ∈ validSet := fun t ht => by
        rcases mem_addTile.mp ht with h | rfl
        · exact hz t h
        · exact hnb
      by_cases htar : target ≤ (addTile z nb).length
      · rw [if_pos htar]; exact hz'
      · rw [if_neg htar]; exact ih _ _ _ _ hz'
    · rw [if_neg hc]; exact ih _ _ _ _ hz

lemma innerWave_zone_sub (edges : List (List Nat)) (validSet : List Nat) (target : Nat) :
    ∀ (wv z nx cl : List Nat) (pr : Bool),
      (∀ t ∈ z, t ∈ validSet) →
      ∀ t ∈ (innerWave edges validSet target wv z nx cl pr).1, t ∈ validSet := by
  intro wv
  induction wv with
  | nil => intro z nx cl pr hz; exact hz
  | cons v wv ih =>
    intro z nx cl pr hz
    simp only [innerWave]
    by_cases hlt : z.length < target
    · rw [if_pos hlt]
      exact ih _ _ _ _ (claimNbs_zone_sub validSet target _ _ _ _ _ hz)
    · rw [if_neg hlt]; exact hz

lemma getD_zone_sub {validSet : List Nat} {zs : List (List Nat)} (h : ZonesSub validSet zs)
    (i : Nat) : ∀ t ∈ zs.getD i [], t ∈ validSet := by
  by_cases hi : i < zs.length
  · rw [List.getD_eq_getElem _ _ hi]
    exact h _ (List.getElem_mem hi)
  · rw [List.getD_eq_default _ _ (Nat.le_of_not_lt hi)]
    intro t ht
    exact absurd ht (List.not_mem_nil t)

lemma roundStep_zone_sub (edges : List (List Nat)) (validSet : List Nat) (target : Nat)
    (st : FloodState) (i : Nat) (h : ZonesSub validSet st.zones) :
    ZonesSub validSet (roundStep edges validSet target st i).zones := by
  simp only [roundStep]
  by_cases hskip : target ≤ (st.zones.getD i []).length
  · rw [if_pos hskip]; exact h
  · rw [if_neg hskip]
    intro z hz
    rcases List.mem_or_eq_of_mem_set hz with hz | rfl
    · exact h z hz
    · exact innerWave_zone_sub edges validSet target _ _ _ _ _ (getD_zone_sub h i)

lemma roundPass_zone_sub (edges : List (List Nat)) (validSet : List Nat) (target k : Nat)
    (st : FloodState) (h : ZonesSub validSet st.zones) :
    ZonesSub validSet (roundPass edges validSet target k st).zones := by
  rw [roundPass]
  generalize List.range k = idxs
  induction idxs generalizing st with
  | nil => exact h
  | cons i idxs ih =>
    rw [List.foldl_cons]
    exact ih _ (roundStep_zone_sub edges validSet target st i h)

lemma roundsLoop_zone_sub (edges : List (List Nat)) (validSet : List Nat) (target k : Nat) :
    ∀ (fuel : Nat) (st : FloodState), ZonesSub validSet st.zones →
      ZonesSub validSet (roundsLoop edges validSet target k fuel st).zones := by
  intro fuel
  induction fuel with
  | zero => intro st h; exact h
  | succ fuel ih =>
    intro st h
    rw [roundsLoop]
    have hpass := roundPass_zone_sub edges validSet target k
      ⟨st.zones, st.frontier, st.claimed, false⟩ h
    by_cases hpr : (!(roundPass edges validSet target k
        ⟨st.zones, st.frontier, st.claimed, false⟩).progressed) = true
    · rw [if_pos hpr]; exact hpass
    · rw [if_neg hpr]
      by_cases hall : ((roundPass edges validSet target k
          ⟨st.zones, st.frontier, st.claimed, false⟩).zones.all
            fun z => target ≤ z.length) = true
      · rw [if_pos hall]; exact hpass
      · rw [if_neg hall]; exact ih _ hpass

lemma initFlood_zone_sub (validSet seeds : List Nat) :
    ZonesSub validSet (initFlood validSet seeds).zones := by
  rw [initFlood]
  have base : ZonesSub validSet (seeds.map fun _ => ([] : List Nat)) := by
    intro z hz
    obtain ⟨_, _, rfl⟩ := List.mem_map.mp hz
    intro t ht
    exact absurd ht (List.not_mem_nil t)
  generalize seeds.enum = items
  suffices h : ∀ (items : List (Nat × Nat)) (p : List (List Nat) × List Nat),
      ZonesSub validSet p.1 →
      ZonesSub validSet (items.foldl
        (fun (p : List (List Nat) × List Nat) is =>
          if validSet.contains is.2 then
            (p.1.set is.1 ((p.1.getD is.1 []) ++ [is.2]), p.2 ++ [is.2])
          else p) p).1 by
    exact h items _ base
  intro items
  induction items with
  | nil => intro p hp; exact hp
  | cons is items ih =>
    intro p hp
    rw [List.foldl_cons]
    apply ih
    by_cases hc : validSet.contains is.2 = true
    · rw [if_pos hc]
      intro z hz
      rcases List.mem_or_eq_of_mem_set hz with hz | rfl
      · exact hp z hz
      · intro t ht
        rcases List.mem_append.mp ht with ht | ht
        · exact getD_zone_sub hp is.1 t ht
        · obtain rfl : t = is.2 := by simpa using ht
          exact contains_true_iff.mp hc
    · rw [if_neg hc]; exact hp

lemma assignStep_zone_sub (nodes : List Node) (validSet : List Nat)
    (zs : List (List Nat)) (id : Nat) (hzs : ZonesSub validSet zs)
    (hid : id ∈ validSet) : ZonesSub validSet (assignStep nodes zs id) := by
  simp only [assignStep]
  by_cases hz : (0 : Int) ≤ nearestZoneIndex nodes zs id
  · rw [if_pos hz]
    intro z hz'
    rcases List.mem_or_eq_of_mem_set hz' with hz' | rfl
    · exact hzs z hz'
    · intro t ht
      rcases mem_addTile.mp ht with ht | rfl
      · exact getD_zone_sub hzs _ t ht
      · exact hid
  · rw [if_neg hz]; exact hzs

lemma assignRemaining_zone_sub (nodes : List Node) (validSet : List Nat)
    (zones : List (List Nat)) (claimed : List Nat) (h : ZonesSub validSet zones) :
    ZonesSub validSet (assignRemaining nodes validSet zones claimed) := by
  have key : ∀ (rem : List Nat) (zs : List (List Nat)), ZonesSub validSet zs →
      (∀ id ∈ rem, id ∈ validSet) →
      ZonesSub validSet (rem.foldl (assignStep nodes) zs) := by
    intro rem
    induction rem with
    | nil => intro zs hzs _; exact hzs
    | cons id rem ih =>
      intro zs hzs hsub
      rw [List.foldl_cons]
      exact ih _ (assignStep_zone_sub nodes validSet zs id hzs
        (hsub id (List.mem_cons_self id rem)))
        (fun i hi => hsub i (List.mem_cons_of_mem id hi))
  exact key _ zones h (fun id hid => (List.mem_filter.mp hid).1)

/-- Every zone produced by `balancedFlood` is contained in the candidate
tile set. -/
lemma balancedFlood_subset (nodes : List Node) (edges : List (List Nat))
    (validSet seeds : List Nat) (target : Nat) :
    ∀ z ∈ balancedFlood nodes edges validSet seeds target, ∀ t ∈ z, t ∈ validSet := by
  rw [balancedFlood]
  exact assignRemaining_zone_sub nodes validSet _ _
    (roundsLoop_zone_sub edges validSet target seeds.length _ _
      (initFlood_zone_sub validSet seeds))

lemma mem_reservedTiles {courts : List FoodCourt} {x : Nat} :
    x ∈ reservedTiles courts ↔ ∃ fc ∈ courts, x ∈ fc.tiles := by
  have h : reservedTiles courts = zonesUnion (courts.map (·.tiles)) := by
    rw [reservedTiles, zonesUnion, List.foldl_map]
  rw [h, mem_zonesUnion]
  constructor
  · rintro ⟨z, hz, hx⟩
    obtain ⟨fc, hfc, rfl⟩ := List.mem_map.mp hz
    exact ⟨fc, hfc, hx⟩
  · rintro ⟨fc, hfc, hx⟩
    exact ⟨fc.tiles, List.mem_map_of_mem _ hfc, hx⟩

/-! ### Flood coverage: every candidate tile is assigned (C3) -/

lemma zoned_set_grow {zs : List (List Nat)} {i : Nat} {b : List Nat}
    (hsub : ∀ t ∈ zs.getD i [], t ∈ b) {x : Nat} (h : Zoned zs x) :
    Zoned (zs.set i b) x := by
  obtain ⟨j, hj, hx⟩ := h
  refine ⟨j, by simpa using hj, ?_⟩
  by_cases hij : i = j
  · subst hij
    have hj' : i < (zs.set i b).length := by simpa using hj
    rw [List.getD_eq_getElem _ _ hj', List.getElem_set_self hj']
    exact hsub x hx
  · have hj' : j < (zs.set i b).length := by simpa using hj
    rw [List.getD_eq_getElem _ _ hj', List.getElem_set_ne hij]
    rwa [List.getD_eq_getElem _ _ hj] at hx

lemma zoned_mem {zs : List (List Nat)} {x : Nat} (h : Zoned zs x) :
    ∃ z ∈ zs, x ∈ z := by
  obtain ⟨j, hj, hx⟩ := h
  rw [List.getD_eq_getElem _ _ hj] at hx
  exact ⟨zs[j], List.getElem_mem hj, hx⟩

lemma claimNbs_zone_mono (validSet : List Nat) (target : Nat) :
    ∀ (nbs z nx cl : List Nat) (pr : Bool),
      ∀ t ∈ z, t ∈ (claimNbs validSet target nbs z nx cl pr).1 := by
  intro nbs
  induction nbs with
  | nil => intro z nx cl pr t ht; exact ht
  | cons nb nbs ih =>
    intro z nx cl pr t ht
    simp only [claimNbs]
    by_cases hc : (validSet.contains nb && !cl.contains nb) = true
    · rw [if_pos hc]
      have ht' : t ∈ addTile z nb := mem_addTile.mpr (Or.inl ht)
      by_cases htar : target ≤ (addTile z nb).length
      · rw [if_pos htar]; exact ht'
      · rw [if_neg htar]; exact ih _ _ _ _ t ht'
    · rw [if_neg hc]; exact ih _ _ _ _ t ht

lemma claimNbs_claimed_mono (validSet : List Nat) (target : Nat) :
    ∀ (nbs z nx cl : List Nat) (pr : Bool),
      ∀ x ∈ cl, x ∈ (claimNbs validSet target nbs z nx cl pr).2.2.1 := by
  intro nbs
  induction nbs with
  | nil => intro z nx cl pr x hx; exact hx
  | cons nb nbs ih =>
    intro z nx cl pr x hx
    simp only [claimNbs]
    by_cases hc : (validSet.contains nb && !cl.contains nb) = true
    · rw [if_pos hc]
      by_cases htar : target ≤ (addTile z nb).length
      · rw [if_pos htar]; exact List.mem_append_left _ hx
      · rw [if_neg htar]; exact ih _ _ _ _ x (List.mem_append_left _ hx)
    · rw [if_neg hc]; exact ih _ _ _ _ x hx

lemma claimNbs_claimed_zoned (validSet : List Nat) (target : Nat) (P : Nat → Prop) :
    ∀ (nbs z nx cl : List Nat) (pr : Bool),
      (∀ x ∈ cl, P x ∨ x ∈ z) →
      ∀ x ∈ (claimNbs validSet target nbs z nx cl pr).2.2.1,
        P x ∨ x ∈ (claimNbs validSet target nbs z nx cl pr).1 := by
  intro nbs
  induction nbs with
  | nil => intro z nx cl pr h x hx; exact h x hx
  | cons nb nbs ih =>
    intro z nx cl pr h x hx
    have h' : ∀ x ∈ cl ++ [nb], P x ∨ x ∈ addTile z nb := by
      intro x hx
      rcases List.mem_append.mp hx with hx | hx
      · rcases h x hx with hP | hz
        · exact Or.inl hP
        · exact Or.inr (mem_addTile.mpr (Or.inl hz))
      · obtain rfl : x = nb := by simpa using hx
        exact Or.inr (mem_addTile.mpr (Or.inr rfl))
    simp only [claimNbs] at hx ⊢
    by_cases hc : (validSet.contains nb && !cl.contains nb) = true
    · rw [if_pos hc] at hx ⊢
      by_cases htar : target ≤ (addTile z nb).length
      · rw [if_pos htar] at hx ⊢
        exact h' x hx
      · rw [if_neg htar] at hx ⊢
        exact ih _ _ _ _ h' x hx
    · rw [if_neg hc] at hx ⊢
      exact ih _ _ _ _ h x hx

lemma innerWave_zone_mono (edges : List (List Nat)) (validSet : List Nat) (target : Nat) :
    ∀ (wv z nx cl : List Nat) (pr : Bool),
      ∀ t ∈ z, t ∈ (innerWave edges validSet target wv z nx cl pr).1 := by
  intro wv
  induction wv with
  | nil => intro z nx cl pr t ht; exact ht
  | cons v wv ih =>
    intro z nx cl pr t ht
    simp only [innerWave]
    by_cases hlt : z.length < target
    · rw [if_pos hlt]
      exact ih _ _ _ _ t (claimNbs_zone_mono validSet target _ _ _ _ _ t ht)
    · rw [if_neg hlt]; exact ht

lemma innerWave_claimed_mono (edges : List (List Nat)) (validSet : List Nat)
    (target : Nat) :
    ∀ (wv z nx cl : List Nat) (pr : Bool),
      ∀ x ∈ cl, x ∈ (innerWave edges validSet target wv z nx cl pr).2.2.1 := by
  intro wv
  induction wv with
  | nil => intro z nx cl pr x hx; exact hx
  | cons v wv ih =>
    intro z nx cl pr x hx
    simp only [innerWave]
    by_cases hlt : z.length < target
    · rw [if_pos hlt]
      exact ih _ _ _ _ x (claimNbs_claimed_mono validSet target _ _ _ _ _ x hx)
    · rw [if_neg hlt]; exact hx

lemma innerWave_claimed_zoned (edges : List (List Nat)) (validSet : List Nat)
    (target : Nat) (P : Nat → Prop) :
    ∀ (wv z nx cl : List Nat) (pr : Bool),
      (∀ x ∈ cl, P x ∨ x ∈ z) →
      ∀ x ∈ (innerWave edges validSet target wv z nx cl pr).2.2.1,
        P x ∨ x ∈ (innerWave edges validSet target wv z nx cl pr).1 := by
  intro wv
  induction wv with
  | nil => intro z nx cl pr h x hx; exact h x hx
  | cons v wv ih =>
    intro z nx cl pr h x hx
    simp only [innerWave] at hx ⊢
    by_cases hlt : z.length < target
    · rw [if_pos hlt] at hx ⊢
      exact ih _ _ _ _ (claimNbs_claimed_zoned validSet target P _ _ _ _ _ h) x hx
    · rw [if_neg hlt] at hx ⊢
      exact h x hx

lemma roundStep_len (edges : List (List Nat)) (validSet : List Nat) (target : Nat)
    (st : FloodState) (i : Nat) :
    (roundStep edges validSet target st i).zones.length = st.zones.length := by
  simp only [roundStep]
  by_cases hskip : target ≤ (st.zones.getD i []).length
  · rw [if_pos hskip]
  · rw [if_neg hskip]
    simp [List.length_set]

lemma roundStep_claimed_mono (edges : List (List Nat)) (validSet : List Nat)
    (target : Nat) (st : FloodState) (i : Nat) :
    ∀ x ∈ st.claimed, x ∈ (roundStep edges validSet target st i).claimed := by
  simp only [roundStep]
  by_cases hskip : target ≤ (st.zones.getD i []).length
  · rw [if_pos hskip]; exact fun x hx => hx
  · rw [if_neg hskip]
    exact fun x hx => innerWave_claimed_mono edges validSet target _ _ _ _ _ x hx

lemma roundStep_c2z (edges : List (List Nat)) (validSet : List Nat) (target : Nat)
    (st : FloodState) (i : Nat) (hi : i < st.zones.length)
    (h : ∀ x ∈ st.claimed, Zoned st.zones x) :
    ∀ x ∈ (roundStep edges validSet target st i).claimed,
      Zoned (roundStep edges validSet target st i).zones x := by
  simp only [roundStep]
  by_cases hskip : target ≤ (st.zones.getD i []).length
  · rw [if_pos hskip]; exact h
  · rw [if_neg hskip]
    intro x hx
    have hres := innerWave_claimed_zoned edges validSet target (Zoned st.zones)
      (st.frontier.getD i []) (st.zones.getD i []) [] st.claimed st.progressed
      (fun x hx => Or.inl (h x hx)) x hx
    rcases hres with hP | hz
    · exact zoned_set_grow
        (fun t ht => innerWave_zone_mono edges validSet target _ _ _ _ _ t ht) hP
    · refine ⟨i, by simpa using hi, ?_⟩
      have hi' : i < (st.zones.set i (innerWave edges validSet target
          (st.frontier.getD i []) (st.zones.getD i []) [] st.claimed
          st.progressed).1).length := by simpa using hi
      rw [List.getD_eq_getElem _ _ hi', List.getElem_set_self hi']
      exact hz

lemma roundFold_inv (edges : List (List Nat)) (validSet : List Nat) (target k : Nat) :
    ∀ (idxs : List Nat) (st : FloodState), (∀ i ∈ idxs, i < k) →
      st.zones.length = k → (∀ x ∈ st.claimed, Zoned st.zones x) →
      ((idxs.foldl (roundStep edges validSet target) st).zones.length = k ∧
        (∀ x ∈ st.claimed, x ∈ (idxs.foldl (roundStep edges validSet target) st).claimed) ∧
        (∀ x ∈ (idxs.foldl (roundStep edges validSet target) st).claimed,
          Zoned (idxs.foldl (roundStep edges validSet target) st).zones x)) := by
  intro idxs
  induction idxs with
  | nil => intro st _ hlen hc; exact ⟨hlen, fun x hx => hx, hc⟩
  | cons i idxs ih =>
    intro st hidx hlen hc
    rw [List.foldl_cons]
    have hi : i < st.zones.length := hlen ▸ hidx i (List.mem_cons_self i idxs)
    obtain ⟨l1, l2, l3⟩ := ih (roundStep edges validSet target st i)
      (fun j hj => hidx j (List.mem_cons_of_mem i hj))
      (by rw [roundStep_len]; exact hlen)
      (roundStep_c2z edges validSet target st i hi hc)
    exact ⟨l1, fun x hx =>
      l2 x (roundStep_claimed_mono edges validSet target st i x hx), l3⟩

lemma roundsLoop_inv (edges : List (List Nat)) (validSet : List Nat) (target k : Nat) :
    ∀ (fuel : Nat) (st : FloodState), st.zones.length = k →
      (∀ x ∈ st.claimed, Zoned st.zones x) →
      ((roundsLoop edges validSet target k fuel st).zones.length = k ∧
        (∀ x ∈ st.claimed, x ∈ (roundsLoop edges validSet target k fuel st).claimed) ∧
        (∀ x ∈ (roundsLoop edges validSet target k fuel st).claimed,
          Zoned (roundsLoop edges validSet target k fuel st).zones x)) := by
  intro fuel
  induction fuel with
  | zero => intro st hlen hc; exact ⟨hlen, fun x hx => hx, hc⟩
  | succ fuel ih =>
    intro st hlen hc
    rw [roundsLoop]
    have hpass := roundFold_inv edges validSet target k (List.range k)
      ⟨st.zones, st.frontier, st.claimed, false⟩
      (fun i hi => List.mem_range.mp hi) hlen hc
    rw [roundPass]
    by_cases hpr : (!((List.range k).foldl (roundStep edges validSet target)
        ⟨st.zones, st.frontier, st.claimed, false⟩).progressed) = true
    · rw [if_pos hpr]; exact hpass
    · rw [if_neg hpr]
      by_cases hall : (((List.range k).foldl (roundStep edges validSet target)
          ⟨st.zones, st.frontier, st.claimed, false⟩).zones.all
            fun z => target ≤ z.length) = true
      · rw [if_pos hall]; exact hpass
      · rw [if_neg hall]
        obtain ⟨l1, l2, l3⟩ := ih _ hpass.1 hpass.2.2
        exact ⟨l1, fun x hx => l2 x (hpass.2.1 x hx), l3⟩

lemma initFold_inv (validSet : List Nat) :
    ∀ (items : List (Nat × Nat)) (p : List (List Nat) × List Nat),
      (∀ is ∈ items, is.1 < p.1.length) →
      (∀ x ∈ p.2, Zoned p.1 x) →
      ((items.foldl (initStep validSet) p).1.length = p.1.length ∧
        (∀ x ∈ p.2, x ∈ (items.foldl (initStep validSet) p).2) ∧
        (∀ x ∈ (items.foldl (initStep validSet) p).2,
          Zoned (items.foldl (initStep validSet) p).1 x) ∧
        (∀ is ∈ items, validSet.contains is.2 = true →
          is.2 ∈ (items.foldl (initStep validSet) p).2)) := by
  intro items
  induction items with
  | nil =>
    intro p _ hc
    exact ⟨rfl, fun x hx => hx, hc, fun is his => absurd his (List.not_mem_nil is)⟩
  | cons a items ih =>
    intro p hidx hc
    rw [List.foldl_cons]
    by_cases hv : validSet.contains a.2 = true
    · have hstep : initStep validSet p a
          = (p.1.set a.1 ((p.1.getD a.1 []) ++ [a.2]), p.2 ++ [a.2]) := by
        rw [initStep, if_pos hv]
      have ha1 : a.1 < p.1.length := hidx a (List.mem_cons_self a items)
      have hc' : ∀ x ∈ p.2 ++ [a.2],
          Zoned (p.1.set a.1 ((p.1.getD a.1 []) ++ [a.2])) x := by
        intro x hx
        rcases List.mem_append.mp hx with hx | hx
        · exact zoned_set_grow (fun t ht => List.mem_append_left _ ht) (hc x hx)
        · obtain rfl : x = a.2 := by simpa using hx
          refine ⟨a.1, by simpa using ha1, ?_⟩
          have ha1' : a.1 < (p.1.set a.1 ((p.1.getD a.1 []) ++ [a.2])).length := by
            simpa using ha1
          rw [List.getD_eq_getElem _ _ ha1', List.getElem_set_self ha1']
          exact List.mem_append_right _ (by simp)
      obtain ⟨l1, l2, l3, l4⟩ := ih (initStep validSet p a)
        (by rw [hstep]; intro is his; simpa using hidx is (List.mem_cons_of_mem a his))
        (by rw [hstep]; exact hc')
      refine ⟨by rw [l1, hstep]; simp, fun x hx => ?_, l3, fun is his hvis => ?_⟩
      · exact l2 x (by rw [hstep]; exact List.mem_append_left _ hx)
      · rcases List.mem_cons.mp his with rfl | his'
        · exact l2 is.2 (by rw [hstep]; exact List.mem_append_right _ (by simp))
        · exact l4 is his' hvis
    · have hstep : initStep validSet p a = p := by
        rw [initStep, if_neg hv]
      rw [hstep]
      obtain ⟨l1, l2, l3, l4⟩ := ih p
        (fun is his => hidx is (List.mem_cons_of_mem a his)) hc
      refine ⟨l1, l2, l3, fun is his hvis => ?_⟩
      rcases List.mem_cons.mp his with rfl | his'
      · exact absurd hvis hv
      · exact l4 is his' hvis

lemma enum_fst_lt {α : Type} {l : List α} {i : Nat} {x : α} (h : (i, x) ∈ l.enum) :
    i < l.length := by
  rw [List.mk_mem_enum_iff_getElem?] at h
  exact (List.getElem?_eq_some.mp h).1

lemma initFlood_inv (validSet seeds : List Nat) :
    (initFlood validSet seeds).zones.length = seeds.length ∧
    (∀ x ∈ (initFlood validSet seeds).claimed, Zoned (initFlood validSet seeds).zones x) ∧
    (∀ s ∈ seeds, s ∈ validSet → s ∈ (initFlood validSet seeds).claimed) := by
  have key := initFold_inv validSet seeds.enum
    (seeds.map fun _ => ([] : List Nat), ([] : List Nat))
    (by
      intro is his
      simpa using enum_fst_lt his)
    (by intro x hx; exact absurd hx (List.not_mem_nil x))
  obtain ⟨l1, _, l3, l4⟩ := key
  refine ⟨?_, l3, fun s hs hv => ?_⟩
  · show (seeds.enum.foldl (initStep validSet)
        (seeds.map fun _ => ([] : List Nat), [])).1.length = seeds.length
    rw [l1]
    simp
  obtain ⟨n, hn⟩ := List.mem_iff_get.mp hs
  have : (n.1, s) ∈ seeds.enum := by
    rw [List.mk_mem_enum_iff_getElem?, List.getElem?_eq_getElem n.2]
    simp [← hn, List.get_eq_getElem]
  exact l4 (n.1, s) this (contains_true_iff.mpr hv)

lemma nzFold_nonneg (nodes : List Node) (zones : List (List Nat)) (n : Node) :
    ∀ (idxs : List Nat) (st : Int × Nat), 0 ≤ st.1 →
      0 ≤ (idxs.foldl (nzStep nodes zones n) st).1 := by
  intro idxs
  induction idxs with
  | nil => intro st h; exact h
  | cons a idxs ih =>
    intro st h
    rw [List.foldl_cons]
    refine ih _ ?_
    simp only [nzStep]
    by_cases he : (zones.getD a []).length = 0
    · rw [if_pos he]; exact h
    · rw [if_neg he]
      by_cases hlt : manh (centroidOfTiles nodes (zones.getD a [])) (n.x, n.y) < st.2
      · rw [if_pos hlt]; exact Int.ofNat_nonneg a
      · rw [if_neg hlt]; exact h

lemma nzStep_pres (nodes : List Node) (zones : List (List Nat)) (n : Node)
    (st : Int × Nat) (a : Nat) (h : st.2 < INF → 0 ≤ st.1) :
    ((nzStep nodes zones n st a).2 < INF → 0 ≤ (nzStep nodes zones n st a).1) ∧
    (nzStep nodes zones n st a).2 ≤ st.2 := by
  simp only [nzStep]
  by_cases he : (zones.getD a []).length = 0
  · rw [if_pos he]; exact ⟨h, le_refl _⟩
  · rw [if_neg he]
    by_cases hlt : manh (centroidOfTiles nodes (zones.getD a [])) (n.x, n.y) < st.2
    · rw [if_pos hlt]
      exact ⟨fun _ => Int.ofNat_nonneg a, Nat.le_of_lt hlt⟩
    · rw [if_neg hlt]; exact ⟨h, le_refl _⟩

lemma nzFold_hit (nodes : List Node) (zones : List (List Nat)) (n : Node) :
    ∀ (idxs : List Nat) (st : Int × Nat) (i : Nat), i ∈ idxs →
      (zones.getD i []).length ≠ 0 →
      manh (centroidOfTiles nodes (zones.getD i [])) (n.x, n.y) < INF →
      (st.2 < INF → 0 ≤ st.1) → st.2 ≤ INF →
      0 ≤ (idxs.foldl (nzStep nodes zones n) st).1 := by
  intro idxs
  induction idxs with
  | nil => intro st i hmem; exact absurd hmem (List.not_mem_nil i)
  | cons a idxs ih =>
    intro st i hmem hne hd hNZ hle
    rw [List.foldl_cons]
    rcases List.mem_cons.mp hmem with rfl | hmem'
    · simp only [nzStep]
      rw [if_neg hne]
      by_cases hlt : manh (centroidOfTiles nodes (zones.getD i [])) (n.x, n.y) < st.2
      · rw [if_pos hlt]
        exact nzFold_nonneg nodes zones n idxs _ (Int.ofNat_nonneg i)
      · rw [if_neg hlt]
        have : st.2 < INF := Nat.lt_of_le_of_lt (Nat.le_of_not_lt hlt) hd
        exact nzFold_nonneg nodes zones n idxs st (hNZ this)
    · obtain ⟨hNZ', hle'⟩ := nzStep_pres nodes zones n st a hNZ
      exact ih _ i hmem' hne hd hNZ' (le_trans hle' hle)

lemma nzFold_bound (nodes : List Node) (zones : List (List Nat)) (n : Node) :
    ∀ (idxs : List Nat) (st : Int × Nat), (∀ i ∈ idxs, i < zones.length) →
      (st.1 = -1 ∨ (0 ≤ st.1 ∧ st.1.toNat < zones.length)) →
      ((idxs.foldl (nzStep nodes zones n) st).1 = -1 ∨
        (0 ≤ (idxs.foldl (nzStep nodes zones n) st).1 ∧
          (idxs.foldl (nzStep nodes zones n) st).1.toNat < zones.length)) := by
  intro idxs
  induction idxs with
  | nil => intro st _ h; exact h
  | cons a idxs ih =>
    intro st hidx h
    rw [List.foldl_cons]
    refine ih _ (fun i hi => hidx i (List.mem_cons_of_mem a hi)) ?_
    simp only [nzStep]
    by_cases he : (zones.getD a []).length = 0
    · rw [if_pos he]; exact h
    · rw [if_neg he]
      by_cases hlt : manh (centroidOfTiles nodes (zones.getD a [])) (n.x, n.y) < st.2
      · rw [if_pos hlt]
        refine Or.inr ⟨Int.ofNat_nonneg a, ?_⟩
        rw [Int.toNat_ofNat]
        exact hidx a (List.mem_cons_self a idxs)
      · rw [if_neg hlt]; exact h

/-- If some zone is non-empty and within Manhattan reach below the `1e9`
sentinel, `nearestZoneIndex` returns a valid zone index. -/
lemma nearestZoneIndex_hit (nodes : List Node) (zones : List (List Nat)) (id j : Nat)
    (hj : j < zones.length) (hne : zones.getD j [] ≠ [])
    (hd : manh (centroidOfTiles nodes (zones.getD j []))
      ((nodes.getD id ⟨0, 0, 0, false⟩).x, (nodes.getD id ⟨0, 0, 0, false⟩).y) < INF) :
    0 ≤ nearestZoneIndex nodes zones id ∧
    (nearestZoneIndex nodes zones id).toNat < zones.length := by
  have hlen : (zones.getD j []).length ≠ 0 := fun h => hne (List.length_eq_zero.mp h)
  have hnn : 0 ≤ nearestZoneIndex nodes zones id := by
    rw [nearestZoneIndex]
    exact nzFold_hit nodes zones _ (List.range zones.length) (-1, INF) j
      (List.mem_range.mpr hj) hlen hd
      (fun h => absurd h (lt_irrefl INF)) (le_refl INF)
  refine ⟨hnn, ?_⟩
  have hb := nzFold_bound nodes zones (nodes.getD id ⟨0, 0, 0, false⟩)
    (List.range zones.length) (-1, INF) (fun i hi => List.mem_range.mp hi) (Or.inl rfl)
  rw [nearestZoneIndex] at hnn ⊢
  rcases hb with hb | hb
  · rw [hb] at hnn
    exact absurd hnn (by decide)
  · exact hb.2

lemma foldl_add_le (B : Nat) (g : Nat → Nat) :
    ∀ (l : List Nat) (acc : Nat), (∀ t ∈ l, g t ≤ B) →
      l.foldl (fun acc id => acc + g id) acc ≤ acc + l.length * B := by
  intro l
  induction l with
  | nil => intro acc _; simp
  | cons a l ih =>
    intro acc h
    rw [List.foldl_cons]
    have h1 := ih (acc + g a) (fun t ht => h t (List.mem_cons_of_mem a ht))
    have h2 := h a (List.mem_cons_self a l)
    calc l.foldl (fun acc id => acc + g id) (acc + g a)
        ≤ (acc + g a) + l.length * B := h1
      _ ≤ acc + (a :: l).length * B := by
          simp only [List.length_cons]
          calc acc + g a + l.length * B ≤ acc + B + l.length * B := by omega
            _ = acc + (l.length + 1) * B := by ring
  -- the `calc` closes the goal

lemma jsRound_le {sx c B : Nat} (hc : 0 < c) (hsx : sx ≤ c * B) : jsRound sx c ≤ B := by
  rw [jsRound]
  have h2c : 0 < 2 * c := by omega
  have : (2 * sx + c) / (2 * c) < B + 1 := by
    rw [Nat.div_lt_iff_lt_mul h2c]
    calc 2 * sx + c ≤ 2 * (c * B) + c := by omega
      _ < (B + 1) * (2 * c) := by ring_nf; omega
  omega

lemma centroid_coord_le (nodes : List Node) (B : Nat) (z : List Nat) (hz : z ≠ [])
    (h : ∀ t ∈ z, (nodes.getD t ⟨0, 0, 0, false⟩).x ≤ B ∧
      (nodes.getD t ⟨0, 0, 0, false⟩).y ≤ B) :
    (centroidOfTiles nodes z).1 ≤ B ∧ (centroidOfTiles nodes z).2 ≤ B := by
  have hc : 0 < z.length := List.length_pos.mpr hz
  constructor
  · refine jsRound_le hc ?_
    have := foldl_add_le B (fun t => (nodes.getD t ⟨0, 0, 0, false⟩).x) z 0
      (fun t ht => (h t ht).1)
    calc z.foldl (fun acc id => acc + (nodes.getD id ⟨0, 0, 0, false⟩).x) 0
        ≤ 0 + z.length * B := this
      _ = z.length * B := by omega
  · refine jsRound_le hc ?_
    have := foldl_add_le B (fun t => (nodes.getD t ⟨0, 0, 0, false⟩).y) z 0
      (fun t ht => (h t ht).2)
    calc z.foldl (fun acc id => acc + (nodes.getD id ⟨0, 0, 0, false⟩).y) 0
        ≤ 0 + z.length * B := this
      _ = z.length * B := by omega

lemma manh_le {a b : Nat × Nat} {B : Nat} (ha1 : a.1 ≤ B) (ha2 : a.2 ≤ B)
    (hb1 : b.1 ≤ B) (hb2 : b.2 ≤ B) : manh a b ≤ 2 * B := by
  rw [manh]
  have h1 : ((a.1 : Int) - b.1).natAbs ≤ B := by omega
  have h2 : ((a.2 : Int) - b.2).natAbs ≤ B := by omega
  omega

lemma assignStep_zoned_mono (nodes : List Node) (zs : List (List Nat)) (id x : Nat)
    (h : Zoned zs x) : Zoned (assignStep nodes zs id) x := by
  simp only [assignStep]
  by_cases hz : (0 : Int) ≤ nearestZoneIndex nodes zs id
  · rw [if_pos hz]
    exact zoned_set_grow (fun t ht => mem_addTile.mpr (Or.inl ht)) h
  · rw [if_neg hz]; exact h

lemma assignFold_zoned_mono (nodes : List Node) :
    ∀ (rem : List Nat) (zs : List (List Nat)) (x : Nat), Zoned zs x →
      Zoned (rem.foldl (assignStep nodes) zs) x := by
  intro rem
  induction rem with
  | nil => intro zs x h; exact h
  | cons id rem ih =>
    intro zs x h
    rw [List.foldl_cons]
    exact ih _ x (assignStep_zoned_mono nodes zs id x h)

lemma assignFold_covers (nodes : List Node) (validSet : List Nat)
    (hcoord : ∀ id ∈ validSet, (nodes.getD id ⟨0, 0, 0, false⟩).x ≤ 100000000 ∧
      (nodes.getD id ⟨0, 0, 0, false⟩).y ≤ 100000000) :
    ∀ (rem : List Nat) (zs : List (List Nat)),
      ZonesSub validSet zs → (∃ x, Zoned zs x) → (∀ id ∈ rem, id ∈ validSet) →
      ∀ t ∈ rem, Zoned (rem.foldl (assignStep nodes) zs) t := by
  intro rem
  induction rem with
  | nil => intro zs _ _ _ t ht; exact absurd ht (List.not_mem_nil t)
  | cons id rem ih =>
    intro zs hsub hex hremv t ht
    rw [List.foldl_cons]
    have hidv : id ∈ validSet := hremv id (List.mem_cons_self id rem)
    obtain ⟨x₀, hx₀⟩ := hex
    have hstep_sub : ZonesSub validSet (assignStep nodes zs id) :=
      assignStep_zone_sub nodes validSet zs id hsub hidv
    have hstep_ex : ∃ x, Zoned (assignStep nodes zs id) x :=
      ⟨x₀, assignStep_zoned_mono nodes zs id x₀ hx₀⟩
    rcases List.mem_cons.mp ht with rfl | ht'
    · -- the tile is assigned right now and the membership persists
      obtain ⟨j, hj, hxj⟩ := hx₀
      have hne : zs.getD j [] ≠ [] := List.ne_nil_of_mem hxj
      have hcb := centroid_coord_le nodes 100000000 (zs.getD j []) hne
        (fun u hu => hcoord u (getD_zone_sub hsub j u hu))
      have hnc := hcoord t hidv
      have hd : manh (centroidOfTiles nodes (zs.getD j []))
          ((nodes.getD t ⟨0, 0, 0, false⟩).x, (nodes.getD t ⟨0, 0, 0, false⟩).y)
            < INF := by
        have := @manh_le (centroidOfTiles nodes (zs.getD j []))
          ((nodes.getD t ⟨0, 0, 0, false⟩).x, (nodes.getD t ⟨0, 0, 0, false⟩).y)
          100000000 hcb.1 hcb.2 hnc.1 hnc.2
        have hB : 2 * 100000000 < INF := by norm_num [INF]
        omega
      obtain ⟨hnn, hbd⟩ := nearestZoneIndex_hit nodes zs t j hj hne hd
      have hzoned : Zoned (assignStep nodes zs t) t := by
        simp only [assignStep]
        rw [if_pos hnn]
        refine ⟨(nearestZoneIndex nodes zs t).toNat, by simpa using hbd, ?_⟩
        have hbd' : (nearestZoneIndex nodes zs t).toNat
            < (zs.set (nearestZoneIndex nodes zs t).toNat
              (addTile (zs.getD (nearestZoneIndex nodes zs t).toNat []) t)).length := by
          simpa using hbd
        rw [List.getD_eq_getElem _ _ hbd', List.getElem_set_self hbd']
        exact mem_addTile.mpr (Or.inr rfl)
      exact assignFold_zoned_mono nodes rem _ t hzoned
    · exact ih _ hstep_sub hstep_ex
        (fun i hi => hremv i (List.mem_cons_of_mem id hi)) t ht'

/-- **C3 (amended).** After growth plus leftover assignment, *every*
candidate tile belongs to at least one zone — including tiles in connected
components containing no seed and not adjacent to any zoned tile, which
are attached to the zone with the Manhattan-closest centroid rather than
left unassigned — provided at least one seed lies in the candidate set
(and coordinates are map-sized, here ≤ 10^8, so every Manhattan distance
beats the `1e9` sentinel). -/
theorem balancedFlood_covers (nodes : List Node) (edges : List (List Nat))
    (validSet seeds : List Nat) (target : Nat)
    (hseed : ∃ s ∈ seeds, s ∈ validSet)
    (hcoord : ∀ id ∈ validSet, (nodes.getD id ⟨0, 0, 0, false⟩).x ≤ 100000000 ∧
      (nodes.getD id ⟨0, 0, 0, false⟩).y ≤ 100000000) :
    ∀ t ∈ validSet, ∃ z ∈ balancedFlood nodes edges validSet seeds target, t ∈ z := by
  intro t ht
  obtain ⟨hlen0, hc2z0, hclseed⟩ := initFlood_inv validSet seeds
  obtain ⟨hlen1, hclmono1, hc2z1⟩ := roundsLoop_inv edges validSet target seeds.length
    (validSet.length + 1) (initFlood validSet seeds) hlen0 hc2z0
  obtain ⟨s₀, hs₀, hs₀v⟩ := hseed
  have hs₀cl : s₀ ∈ (roundsLoop edges validSet target seeds.length
      (validSet.length + 1) (initFlood validSet seeds)).claimed :=
    hclmono1 s₀ (hclseed s₀ hs₀ hs₀v)
  have hzsub : ZonesSub validSet (roundsLoop edges validSet target seeds.length
      (validSet.length + 1) (initFlood validSet seeds)).zones :=
    roundsLoop_zone_sub edges validSet target seeds.length _ _
      (initFlood_zone_sub validSet seeds)
  have hex : ∃ x, Zoned (roundsLoop edges validSet target seeds.length
      (validSet.length + 1) (initFlood validSet seeds)).zones x :=
    ⟨s₀, hc2z1 s₀ hs₀cl⟩
  show ∃ z ∈ assignRemaining nodes validSet _ _, t ∈ z
  rw [assignRemaining]
  by_cases hcl : t ∈ (roundsLoop edges validSet target seeds.length
      (validSet.length + 1) (initFlood validSet seeds)).claimed
  · exact zoned_mem (assignFold_zoned_mono nodes _ _ t (hc2z1 t hcl))
  · have hmem : t ∈ validSet.filter (fun id =>
        !(roundsLoop edges validSet target seeds.length (validSet.length + 1)
          (initFlood validSet seeds)).claimed.contains id) := by
      refine List.mem_filter.mpr ⟨ht, ?_⟩
      simpa using hcl
    exact zoned_mem (assignFold_covers nodes validSet hcoord _ _ hzsub hex
      (fun i hi => (List.mem_filter.mp hi).1) t hmem)

/-- **C3 counterexample.** Node 2 at `(5,0)` forms its own connected
component (empty adjacency), contains no seed (the only seed is node 0)
and is not adjacent to any zoned tile; the claim says it remains
unassigned in every zone, but the leftover assignment attaches it to
zone 0. -/
theorem balancedFlood_counterexample :
    (([[1], [0], []] : List (List Nat)).getD 2 []) = [] ∧
    (2 : Nat) ∉ ([0] : List Nat) ∧
    (2 : Nat) ∈ (balancedFlood [⟨0, 0, 0, false⟩, ⟨1, 1, 0, false⟩, ⟨2, 5, 0, false⟩]
      [[1], [0], []] [0, 1, 2] [0] 180).getD 0 [] := by
  refine ⟨rfl, by decide, by decide⟩

/-- **C3 witness** for the amended theorem: on the same 3-node instance,
the isolated tile 2 ends up in a zone. -/
theorem balancedFlood_covers_witness :
    (∃ s ∈ ([0] : List Nat), s ∈ ([0, 1, 2] : List Nat)) ∧
    (∀ id ∈ ([0, 1, 2] : List Nat),
      (([⟨0, 0, 0, false⟩, ⟨1, 1, 0, false⟩, ⟨2, 5, 0, false⟩] : List Node).getD id
        ⟨0, 0, 0, false⟩).x ≤ 100000000 ∧
      (([⟨0, 0, 0, false⟩, ⟨1, 1, 0, false⟩, ⟨2, 5, 0, false⟩] : List Node).getD id
        ⟨0, 0, 0, false⟩).y ≤ 100000000) ∧
    (2 : Nat) ∈ ([0, 1, 2] : List Nat) ∧
    ∃ z ∈ balancedFlood [⟨0, 0, 0, false⟩, ⟨1, 1, 0, false⟩, ⟨2, 5, 0, false⟩]
      [[1], [0], []] [0, 1, 2] [0] 180, 2 ∈ z :=
  ⟨⟨0, by decide, by decide⟩, by decide, by decide,
    balancedFlood_covers [⟨0, 0, 0, false⟩, ⟨1, 1, 0, false⟩, ⟨2, 5, 0, false⟩]
      [[1], [0], []] [0, 1, 2] [0] 180 ⟨0, by decide, by decide⟩ (by decide) 2
      (by decide)⟩

/-- **C10.** The detector's visited set is shared across all seeds and
never rolled back: after processing any prefix of seeds, every visited
tile (including those explored by growths later discarded for falling
below the 20-tile floor) stays visited to the end, and every court
produced by the remaining seeds is disjoint from that visited set — so a
tile explored by a discarded growth can never join a later court. In
particular the detected court set depends on the seed order: on
`courtGraphA` the seed order `[(0,0), (13,0)]` yields no court at all
while `[(13,0), (0,0)]` yields one. -/
theorem detect_discard_poisons_visited :
    (∀ (edges : List (List Nat)) (validIds : List Nat) (nodes : List Node)
        (R2 maxTiles : Nat) (pre post : List (Nat × Nat)),
      (∀ x ∈ (pre.foldl (detectStep edges validIds nodes R2 maxTiles) ([], [])).2,
        x ∈ ((pre ++ post).foldl (detectStep edges validIds nodes R2 maxTiles) ([], [])).2) ∧
      (∃ new, ((pre ++ post).foldl (detectStep edges validIds nodes R2 maxTiles)
            ([], [])).1
          = (pre.foldl (detectStep edges validIds nodes R2 maxTiles) ([], [])).1 ++ new ∧
        ∀ fc ∈ new, ∀ t ∈ fc.tiles,
          t ∉ (pre.foldl (detectStep edges validIds nodes R2 maxTiles) ([], [])).2)) ∧
    (detectFoodCourts courtGraphA.edges courtGraphA.validIds courtGraphA.nodes 64 160
        [(0, 0), (13, 0)]).1.length = 0 ∧
    (detectFoodCourts courtGraphA.edges courtGraphA.validIds courtGraphA.nodes 64 160
        [(13, 0), (0, 0)]).1.length = 1 := by
  refine ⟨fun edges validIds nodes R2 maxTiles pre post => ?_, by decide, by decide⟩
  obtain ⟨_, hsub, _⟩ := detectFold_inv edges validIds nodes R2 maxTiles pre ([], [])
    (fun fc hfc => absurd hfc (List.not_mem_nil fc))
  obtain ⟨h1, _, h3⟩ := detectFold_inv edges validIds nodes R2 maxTiles post _ hsub
  rw [List.foldl_append]
  exact ⟨h1, h3⟩

/-- **C10 witness**: a 2-node path; the single seed `(0,0)` grows a 2-tile
cluster that is discarded, yet tile 0 stays visited at the end of the
run. -/
theorem detect_discard_poisons_visited_witness :
    (0 : Nat) ∈ (([((0 : Nat), (0 : Nat))].foldl
        (detectStep [[1], [0]] [0, 1] [⟨0, 0, 0, false⟩, ⟨1, 1, 0, false⟩] 64 160)
        ([], [])).2) ∧
    (0 : Nat) ∈ ((([((0 : Nat), (0 : Nat))] ++ []).foldl
        (detectStep [[1], [0]] [0, 1] [⟨0, 0, 0, false⟩, ⟨1, 1, 0, false⟩] 64 160)
        ([], [])).2) :=
  ⟨by decide,
    (detect_discard_poisons_visited.1 [[1], [0]] [0, 1]
        [⟨0, 0, 0, false⟩, ⟨1, 1, 0, false⟩] 64 160 [(0, 0)] []).1 0 (by decide)⟩

/-- **C6.** (a) Any two distinct FoodCourts of one detection run have
disjoint tile sets. (b) Court tiles are removed from the candidate pool
before zoning, so no tile of any court appears in any zone grown by the
balanced partitioner (before rescue). -/
theorem foodcourts_disjoint :
    (∀ (edges : List (List Nat)) (validIds : List Nat) (nodes : List Node)
        (R2 maxTiles : Nat) (centers : List (Nat × Nat)) (i j : Nat), i ≠ j →
      ∀ t ∈ ((detectFoodCourts edges validIds nodes R2 maxTiles centers).1.getD i
          default).tiles,
        t ∉ ((detectFoodCourts edges validIds nodes R2 maxTiles centers).1.getD j
          default).tiles) ∧
    (∀ (nodes : List Node) (edges : List (List Nat)) (validIds : List Nat)
        (R2 maxTiles : Nat) (centers : List (Nat × Nat)) (seeds : List Nat)
        (target : Nat) (z : List Nat) (fc : FoodCourt) (t : Nat),
      z ∈ balancedFlood nodes edges
            (validIds.filter fun id =>
              !(reservedTiles (detectFoodCourts edges validIds nodes R2 maxTiles
                  centers).1).contains id)
            seeds target →
      fc ∈ (detectFoodCourts edges validIds nodes R2 maxTiles centers).1 →
      t ∈ fc.tiles → t ∉ z) := by
  constructor
  · intro edges validIds nodes R2 maxTiles centers i j hij t ht
    have hp : (detectFoodCourts edges validIds nodes R2 maxTiles centers).1.Pairwise
        (fun a b => ∀ t ∈ a.tiles, t ∉ b.tiles) :=
      detectFold_pairwise edges validIds nodes R2 maxTiles centers ([], [])
        (fun fc hfc => absurd hfc (List.not_mem_nil fc)) List.Pairwise.nil
    set L := (detectFoodCourts edges validIds nodes R2 maxTiles centers).1 with hL
    by_cases hi : i < L.length
    · by_cases hj : j < L.length
      · rw [List.getD_eq_getElem _ _ hi] at ht
        rw [List.getD_eq_getElem _ _ hj]
        rcases Nat.lt_trichotomy i j with hlt | heq | hgt
        · exact fun htj => List.pairwise_iff_getElem.mp hp i j hi hj hlt t ht htj
        · exact absurd heq hij
        · exact fun htj => List.pairwise_iff_getElem.mp hp j i hj hi hgt t htj ht
      · rw [List.getD_eq_default _ _ (Nat.le_of_not_lt hj)]
        exact fun htj => absurd htj (List.not_mem_nil t)
    · rw [List.getD_eq_default _ _ (Nat.le_of_not_lt hi)] at ht
      exact absurd ht (List.not_mem_nil t)
  · intro nodes edges validIds R2 maxTiles centers seeds target z fc t hz hfc ht htz
    have hres : t ∈ reservedTiles (detectFoodCourts edges validIds nodes R2 maxTiles
        centers).1 := mem_reservedTiles.mpr ⟨fc, hfc, ht⟩
    have hval := balancedFlood_subset nodes edges _ seeds target z hz t htz
    have hfil := (List.mem_filter.mp hval).2
    rw [contains_true_iff.mpr hres] at hfil
    exact absurd hfil (by simp)

set_option maxRecDepth 100000 in
/-- **C6 witness**: on `courtGraphB` the two detected courts are disjoint
(checked at tile 10 of the first court), and the flood zone grown on the
remaining pool avoids court tiles. -/
theorem foodcourts_disjoint_witness :
    (0 : Nat) ≠ 1 ∧
    (∀ t ∈ (courtsB.1.getD 0 default).tiles, t ∉ (courtsB.1.getD 1 default).tiles) ∧
    (balancedFlood courtGraphB.nodes courtGraphB.edges
        (courtGraphB.validIds.filter fun id => !(reservedTiles courtsB.1).contains id)
        [30] 180).getD 0 []
      ∈ balancedFlood courtGraphB.nodes courtGraphB.edges
        (courtGraphB.validIds.filter fun id => !(reservedTiles courtsB.1).contains id)
        [30] 180 ∧
    courtsB.1.getD 0 default ∈ courtsB.1 ∧
    (10 : Nat) ∈ (courtsB.1.getD 0 default).tiles ∧
    (10 : Nat) ∉ (balancedFlood courtGraphB.nodes courtGraphB.edges
        (courtGraphB.validIds.filter fun id => !(reservedTiles courtsB.1).contains id)
        [30] 180).getD 0 [] := by
  refine ⟨by decide, ?_, ?_, ?_, ?_, ?_⟩
  · exact foodcourts_disjoint.1 courtGraphB.edges courtGraphB.validIds courtGraphB.nodes
      64 160 [(5, 0), (35, 0)] 0 1 (by decide)
  · decide
  · decide
  · decide
  · exact foodcourts_disjoint.2 courtGraphB.nodes courtGraphB.edges courtGraphB.validIds
      64 160 [(5, 0), (35, 0)] [30] 180
      ((balancedFlood courtGraphB.nodes courtGraphB.edges
          (courtGraphB.validIds.filter fun id => !(reservedTiles courtsB.1).contains id)
          [30] 180).getD 0 [])
      (courtsB.1.getD 0 default) 10 (by decide) (by decide) (by decide)

/-! ### BFS zero distances and the infinity sentinel (C9) -/

lemma bfsStep_pres_zero {validIds : List Nat} {v s nb : Nat}
    {st : (Nat → Option Nat) × (Nat → Option Nat) × List Nat}
    (h : st.1 s = some 0) : (bfsStep validIds v st nb).1 s = some 0 := by
  by_cases hc : nb ∈ validIds
  · cases hd : st.1 nb with
    | some k => simp [bfsStep, hc, hd, h]
    | none =>
      have hne : s ≠ nb := fun he => by
        rw [← he, h] at hd
        exact Option.noConfusion hd
      simp [bfsStep, hc, hd, hne, h]
  · simp [bfsStep, hc, h]

lemma bfsFold_pres_zero {validIds : List Nat} {v s : Nat} :
    ∀ (E : List Nat) (st : (Nat → Option Nat) × (Nat → Option Nat) × List Nat),
      st.1 s = some 0 → ((E.foldl (bfsStep validIds v) st).1 s = some 0) := by
  intro E
  induction E with
  | nil => intro st h; exact h
  | cons a E ih =>
    intro st h
    rw [List.foldl_cons]
    exact ih _ (bfsStep_pres_zero h)

lemma bfsLoop_pres_zero {edges : List (List Nat)} {validIds : List Nat} {s : Nat} :
    ∀ (fuel : Nat) (q : List Nat) (dist prev : Nat → Option Nat),
      dist s = some 0 → (bfsLoop edges validIds fuel q dist prev).1 s = some 0 := by
  intro fuel
  induction fuel with
  | zero => intro q dist prev h; exact h
  | succ fuel ih =>
    intro q dist prev h
    cases q with
    | nil => exact h
    | cons v q =>
      rw [bfsLoop]
      exact ih _ _ _ (bfsFold_pres_zero (edges.getD v []) (dist, prev, q) h)

/-- A BFS from `a` records distance `0` at `a` itself, and the `|| 1e9`
lookup turns that `0` into the infinity sentinel. -/
lemma distEntry_self (edges : List (List Nat)) (validIds : List Nat) (a : Nat) :
    distEntry edges validIds a a = INF := by
  have h0 : (bfsDistances edges validIds a (validIds.length + 1)).1 a = some 0 := by
    unfold bfsDistances
    exact bfsLoop_pres_zero _ _ _ _ (by simp)
  simp [distEntry, h0]

/-- **C9.** In the exit distance matrix every entry whose true BFS hop
distance is 0 is recorded as the sentinel `1e9` rather than `0`: for every
exit `i`, `dist[i][i] = 1e9`, and for any two exits mapped to the same node
id, `dist[i][j] = 1e9`, because `d.dist[b] || 1e9` treats the distance 0 as
absent. -/
theorem dist_matrix_same_node_inf (edges : List (List Nat)) (validIds : List Nat)
    (exits : List ExitPoint) (i j : Nat) (hi : i < exits.length) (hj : j < exits.length)
    (hsame : (exits.getD i default).nodeId = (exits.getD j default).nodeId) :
    ((buildDistMatrix edges validIds exits).getD i []).getD j 0 = INF := by
  rw [List.getD_eq_getElem _ _ hi, List.getD_eq_getElem _ _ hj] at hsame
  have hlen1 : i < (buildDistMatrix edges validIds exits).length := by
    simpa [buildDistMatrix] using hi
  rw [List.getD_eq_getElem _ _ hlen1]
  have hrow : (buildDistMatrix edges validIds exits)[i]
      = exits.map fun f => distEntry edges validIds exits[i].nodeId f.nodeId := by
    simp [buildDistMatrix]
  rw [hrow]
  have hlen2 : j < (exits.map fun f =>
      distEntry edges validIds exits[i].nodeId f.nodeId).length := by
    simpa using hj
  rw [List.getD_eq_getElem _ _ hlen2, List.getElem_map]
  simp only [hsame]
  exact distEntry_self edges validIds _

/-- **C9 witness**: two exits on the same node (id 0) of a 2-node path
graph; both the diagonal entry and the off-diagonal same-node entry are the
sentinel. -/
theorem dist_matrix_same_node_inf_witness :
    (0 : Nat) < 2 ∧ (1 : Nat) < 2 ∧
    (([⟨0, 0, 0⟩, ⟨0, 1, 0⟩] : List ExitPoint).getD 0 default).nodeId
      = (([⟨0, 0, 0⟩, ⟨0, 1, 0⟩] : List ExitPoint).getD 1 default).nodeId ∧
    ((buildDistMatrix [[1], [0]] [0, 1] [⟨0, 0, 0⟩, ⟨0, 1, 0⟩]).getD 0 []).getD 1 0 = INF :=
  ⟨by decide, by decide, by decide,
    dist_matrix_same_node_inf [[1], [0]] [0, 1] [⟨0, 0, 0⟩, ⟨0, 1, 0⟩] 0 1
      (by decide) (by decide) (by decide)⟩

/-- **C1 counterexample.** In Scenario A (10-tile corridor, attractor at
`(9,0)`), the node of tile `(7,0)` has id 7, but pruning yields
`[8, 9]` — so the final ValidSet is *not* `{(7,0), (8,0), (9,0)}`:
`(7,0)` is itself not adjacent to the attractor and is peeled. -/
theorem corridor_prune_counterexample :
    idAtXY (pathCoords corridorMap 10 1) 7 0 = some 7 ∧
    corridorPrune = some [8, 9] ∧ (7 : Nat) ∉ [(8 : Nat), 9] := by
  refine ⟨by decide, by decide, by decide⟩

/-- **C1 (amended).** Scenario A's pruning pass removes `(0,0)` through
`(7,0)` and stops only once the remaining leaf `(8,0)` is directly adjacent
to the attractor `(9,0)`: the final ValidSet is exactly
`{(8,0), (9,0)}`, of size 2. -/
theorem corridor_prune_amended :
    corridorPrune = some [8, 9] ∧
    ((corridorGraph.nodes.filter fun n => [8, 9].contains n.id).map
      fun n => (n.x, n.y)) = [(8, 0), (9, 0)] ∧
    [8, 9].length = 2 := by
  refine ⟨by decide, by decide, by decide⟩

/-! ### Prim tree correctness (C5) -/

lemma rtg_lift {r s : Nat → Nat → Prop}
    (h : ∀ a b, r a b → Relation.ReflTransGen s a b) :
    ∀ a b, Relation.ReflTransGen r a b → Relation.ReflTransGen s a b := by
  intro a b hab
  induction hab with
  | refl => exact Relation.ReflTransGen.refl
  | tail _ hbc ih => exact Relation.ReflTransGen.trans ih (h _ _ hbc)

lemma rtg_symm {r : Nat → Nat → Prop} (hs : ∀ a b, r a b → r b a) :
    ∀ a b, Relation.ReflTransGen r a b → Relation.ReflTransGen r b a := by
  intro a b hab
  induction hab with
  | refl => exact Relation.ReflTransGen.refl
  | tail _ hbc ih => exact Relation.ReflTransGen.head (hs _ _ hbc) ih

lemma weightSum_shift (dist : Nat → Nat → Nat) :
    ∀ (S : List (Nat × Nat)) (a : Nat),
      S.foldl (fun acc e => acc + dist e.1 e.2) a = a + weightSum dist S := by
  intro S
  induction S with
  | nil => intro a; simp [weightSum]
  | cons e S ih =>
    intro a
    rw [List.foldl_cons, ih]
    have h2 : weightSum dist (e :: S) = (0 + dist e.1 e.2) + weightSum dist S := by
      rw [weightSum, List.foldl_cons, ih]
    omega

lemma weightSum_cons (dist : Nat → Nat → Nat) (e : Nat × Nat) (S : List (Nat × Nat)) :
    weightSum dist (e :: S) = dist e.1 e.2 + weightSum dist S := by
  show S.foldl (fun acc e => acc + dist e.1 e.2) (0 + dist e.1 e.2) = _
  rw [weightSum_shift]
  omega

lemma weightSum_eraseEdge (dist : Nat → Nat → Nat) :
    ∀ (S : List (Nat × Nat)) (e : Nat × Nat), e ∈ S →
      weightSum dist S = dist e.1 e.2 + weightSum dist (eraseEdge S e) := by
  intro S
  induction S with
  | nil => intro e he; exact absurd he (List.not_mem_nil e)
  | cons x xs ih =>
    intro e he
    by_cases hx : x = e
    · subst hx
      have hr : eraseEdge (x :: xs) x = xs := by simp [eraseEdge]
      rw [hr, weightSum_cons]
    · rcases List.mem_cons.mp he with h | h
      · exact absurd h.symm hx
      · have hr : eraseEdge (x :: xs) e = x :: eraseEdge xs e := by
          simp [eraseEdge, hx]
        rw [hr, weightSum_cons, weightSum_cons, ih e h]
        omega

lemma eraseEdge_subset :
    ∀ (S : List (Nat × Nat)) (e : Nat × Nat), ∀ x ∈ eraseEdge S e, x ∈ S := by
  intro S
  induction S with
  | nil => intro e x hx; exact absurd hx (List.not_mem_nil x)
  | cons a xs ih =>
    intro e x hx
    by_cases ha : a = e
    · rw [show eraseEdge (a :: xs) e = xs by simp [eraseEdge, ha]] at hx
      exact List.mem_cons_of_mem a hx
    · rw [show eraseEdge (a :: xs) e = a :: eraseEdge xs e by
        simp [eraseEdge, ha]] at hx
      rcases List.mem_cons.mp hx with h | h
      · exact List.mem_cons.mpr (Or.inl h)
      · exact List.mem_cons_of_mem a (ih e x h)

lemma mem_eraseEdge_of_ne :
    ∀ (S : List (Nat × Nat)) (e x : Nat × Nat), x ≠ e → x ∈ S → x ∈ eraseEdge S e := by
  intro S
  induction S with
  | nil => intro e x _ hx; exact absurd hx (List.not_mem_nil x)
  | cons a xs ih =>
    intro e x hne hx
    by_cases ha : a = e
    · rw [show eraseEdge (a :: xs) e = xs by simp [eraseEdge, ha]]
      rcases List.mem_cons.mp hx with h | h
      · exact absurd (h.trans ha) hne
      · exact h
    · rw [show eraseEdge (a :: xs) e = a :: eraseEdge xs e by simp [eraseEdge, ha]]
      rcases List.mem_cons.mp hx with h | h
      · exact List.mem_cons.mpr (Or.inl h)
      · exact List.mem_cons_of_mem a (ih e x hne h)

lemma subset_full {used c : List Nat} (hnd : used.Nodup) (hsub : ∀ u ∈ used, u ∈ c)
    (hlen : c.length ≤ used.length) : ∀ v ∈ c, v ∈ used := by
  intro v hv
  by_contra hvn
  have hnd' : (v :: used).Nodup := List.nodup_cons.mpr ⟨hvn, hnd⟩
  have hsub' : (v :: used) ⊆ c := by
    intro u hu
    rcases List.mem_cons.mp hu with rfl | h
    · exact hv
    · exact hsub u h
  have := (List.subperm_of_subset hnd' hsub').length_le
  simp only [List.length_cons] at this
  omega

lemma exists_unused {used c : List Nat} (hcd : c.Nodup)
    (hlen : used.length < c.length) : ∃ v ∈ c, v ∉ used := by
  by_contra h
  push_neg at h
  have := (List.subperm_of_subset hcd (fun v hv => h v hv)).length_le
  omega

lemma crossPairs_mem {used c : List Nat} :
    ∀ p ∈ crossPairs used c, p.1 ∈ used ∧ p.2 ∈ c := by
  intro p hp
  rw [crossPairs, List.mem_flatMap] at hp
  obtain ⟨u, hu, hp⟩ := hp
  rw [List.mem_map] at hp
  obtain ⟨v, hv, rfl⟩ := hp
  exact ⟨hu, hv⟩

lemma mem_crossPairs {used c : List Nat} {u v : Nat} (hu : u ∈ used) (hv : v ∈ c) :
    (u, v) ∈ crossPairs used c := by
  rw [crossPairs, List.mem_flatMap]
  exact ⟨u, hu, List.mem_map.mpr ⟨v, hv, rfl⟩⟩

lemma scanFold_inv (dist : Nat → Nat → Nat) (used c : List Nat) :
    ∀ (l : List (Nat × Nat)) (st : Option (Nat × Nat) × Nat),
      (∀ p ∈ l, p.1 ∈ used ∧ p.2 ∈ c) →
      ((st.1 = none ∧ st.2 = INF) ∨
        ∃ q, st.1 = some q ∧ st.2 = dist q.1 q.2 ∧ q.1 ∈ used ∧ q.2 ∈ c ∧
          q.2 ∉ used) →
      ((l.foldl (scanPair dist used) st).1 = none ∧
          (l.foldl (scanPair dist used) st).2 = INF) ∨
        ∃ q, (l.foldl (scanPair dist used) st).1 = some q ∧
          (l.foldl (scanPair dist used) st).2 = dist q.1 q.2 ∧
          q.1 ∈ used ∧ q.2 ∈ c ∧ q.2 ∉ used := by
  intro l
  induction l with
  | nil => intro st _ h; exact h
  | cons p l ih =>
    intro st hl h
    rw [List.foldl_cons]
    refine ih _ (fun q hq => hl q (List.mem_cons_of_mem p hq)) ?_
    obtain ⟨hp1, hp2⟩ := hl p (List.mem_cons_self p l)
    simp only [scanPair]
    by_cases hc : used.contains p.2 = true
    · rw [if_pos hc]; exact h
    · rw [if_neg hc]
      by_cases hlt : dist p.1 p.2 < st.2
      · rw [if_pos hlt]
        exact Or.inr ⟨p, rfl, rfl, hp1, hp2, fun hm => hc (contains_true_iff.mpr hm)⟩
      · rw [if_neg hlt]; exact h

lemma scanFold_min (dist : Nat → Nat → Nat) (used : List Nat) :
    ∀ (l : List (Nat × Nat)) (st : Option (Nat × Nat) × Nat),
      (l.foldl (scanPair dist used) st).2 ≤ st.2 ∧
      ∀ p ∈ l, p.2 ∉ used → (l.foldl (scanPair dist used) st).2 ≤ dist p.1 p.2 := by
  intro l
  induction l with
  | nil =>
    intro st
    exact ⟨le_refl _, fun p hp => absurd hp (List.not_mem_nil p)⟩
  | cons p l ih =>
    intro st
    rw [List.foldl_cons]
    have hstep : (scanPair dist used st p).2 ≤ st.2 ∧
        (p.2 ∉ used → (scanPair dist used st p).2 ≤ dist p.1 p.2) := by
      simp only [scanPair]
      by_cases hc : used.contains p.2 = true
      · rw [if_pos hc]
        exact ⟨le_refl _, fun hm => absurd (contains_true_iff.mp hc) hm⟩
      · rw [if_neg hc]
        by_cases hlt : dist p.1 p.2 < st.2
        · rw [if_pos hlt]
          exact ⟨Nat.le_of_lt hlt, fun _ => le_refl _⟩
        · rw [if_neg hlt]
          exact ⟨le_refl _, fun _ => Nat.le_of_not_lt hlt⟩
    obtain ⟨hmono, hall⟩ := ih (scanPair dist used st p)
    refine ⟨le_trans hmono hstep.1, ?_⟩
    intro q hq hqn
    rcases List.mem_cons.mp hq with rfl | hq'
    · exact le_trans hmono (hstep.2 hqn)
    · exact hall q hq' hqn

lemma findBest_some_spec {dist : Nat → Nat → Nat} {used c : List Nat} {p : Nat × Nat}
    (h : (findBest dist used c).1 = some p) :
    (findBest dist used c).2 = dist p.1 p.2 ∧ p.1 ∈ used ∧ p.2 ∈ c ∧ p.2 ∉ used := by
  have hinv := scanFold_inv dist used c (crossPairs used c) (none, INF)
    (fun q hq => crossPairs_mem q hq) (Or.inl ⟨rfl, rfl⟩)
  rw [findBest] at h ⊢
  rcases hinv with ⟨h1, _⟩ | ⟨q, hq1, hq2, hq3, hq4, hq5⟩
  · exact Option.noConfusion (h1.symm.trans h)
  · obtain rfl : q = p := Option.some.inj (hq1.symm.trans h)
    exact ⟨hq2, hq3, hq4, hq5⟩

lemma findBest_none_inf {dist : Nat → Nat → Nat} {used c : List Nat}
    (h : (findBest dist used c).1 = none) : (findBest dist used c).2 = INF := by
  have hinv := scanFold_inv dist used c (crossPairs used c) (none, INF)
    (fun q hq => crossPairs_mem q hq) (Or.inl ⟨rfl, rfl⟩)
  rw [findBest] at h ⊢
  rcases hinv with ⟨_, h2⟩ | ⟨q, hq1, _⟩
  · exact h2
  · rw [h] at hq1
    exact Option.noConfusion hq1

lemma findBest_le {dist : Nat → Nat → Nat} {used c : List Nat} {u v : Nat}
    (hu : u ∈ used) (hv : v ∈ c) (hvn : v ∉ used) :
    (findBest dist used c).2 ≤ dist u v := by
  have := (scanFold_min dist used (crossPairs used c) (none, INF)).2 (u, v)
    (mem_crossPairs hu hv) hvn
  rw [findBest]
  exact this

lemma findBest_isSome {dist : Nat → Nat → Nat} {used c : List Nat}
    (hfin : ∀ u ∈ c, ∀ v ∈ c, u ≠ v → dist u v < INF)
    (hsub : ∀ u ∈ used, u ∈ c) (hne : used ≠ []) (hcd : c.Nodup)
    (hlen : used.length < c.length) :
    ∃ p, (findBest dist used c).1 = some p := by
  obtain ⟨v, hv, hvn⟩ := exists_unused hcd hlen
  obtain ⟨u, hu⟩ := List.exists_mem_of_ne_nil used hne
  have hne' : u ≠ v := fun h => hvn (h ▸ hu)
  have hlt : dist u v < INF := hfin u (hsub u hu) v hv hne'
  have hle : (findBest dist used c).2 ≤ dist u v := findBest_le hu hv hvn
  cases hbest : (findBest dist used c).1 with
  | some p => exact ⟨p, rfl⟩
  | none =>
    have := findBest_none_inf hbest
    omega

lemma primLoop_full (c : List Nat) (dist : Nat → Nat → Nat) (fuel : Nat)
    (used : List Nat) (hge : ¬ used.length < c.length) :
    primLoop c dist fuel used = [] := by
  cases fuel with
  | zero => rfl
  | succ f => simp only [primLoop, if_neg hge]

lemma crossing_of_reach (S : List (Nat × Nat)) (U : List Nat) (a : Nat) (haU : a ∈ U) :
    ∀ b, Relation.ReflTransGen (ConnVia S U) a b → b ∉ U →
      ∃ y x, y ∉ U ∧ x ∈ U ∧ EdgeRel S x y ∧
        Relation.ReflTransGen (OutStep S U) b y := by
  intro b hab
  induction hab with
  | refl => intro hb; exact absurd haU hb
  | tail hstep hlast ih =>
    rename_i m b'
    intro hb
    rcases hlast with hedge | ⟨hmU, hbU⟩
    · by_cases hm : m ∈ U
      · exact ⟨b', m, hb, hm, hedge, Relation.ReflTransGen.refl⟩
      · obtain ⟨y, x, hy, hx, he, hpath⟩ := ih hm
        have hsymEdge : EdgeRel S b' m := by
          rcases hedge with h | h
          · exact Or.inr h
          · exact Or.inl h
        exact ⟨y, x, hy, hx, he,
          Relation.ReflTransGen.head ⟨hsymEdge, hb, hm⟩ hpath⟩
    · exact absurd hbU hb

lemma primLoop_spec_full (c : List Nat) (dist : Nat → Nat → Nat) (fuel : Nat)
    (used : List Nat) (hnd : used.Nodup) (hsub : ∀ u ∈ used, u ∈ c)
    (hge : ¬ used.length < c.length) :
    (primLoop c dist fuel used).length = c.length - used.length ∧
    (∀ e ∈ primLoop c dist fuel used, e.1 ∈ c ∧ e.2 ∈ c) ∧
    (∀ v ∈ c, ∃ u ∈ used, Reach (primLoop c dist fuel used) u v) := by
  have hfull := subset_full hnd hsub (by omega)
  rw [primLoop_full c dist fuel used hge]
  refine ⟨by simp only [List.length_nil]; omega,
    fun e he => absurd he (List.not_mem_nil e), ?_⟩
  intro v hv
  exact ⟨v, hfull v hv, Relation.ReflTransGen.refl⟩

lemma primLoop_spec (c : List Nat) (dist : Nat → Nat → Nat) (hcd : c.Nodup)
    (hfin : ∀ u ∈ c, ∀ v ∈ c, u ≠ v → dist u v < INF) :
    ∀ (fuel : Nat) (used : List Nat), used ≠ [] → used.Nodup →
      (∀ u ∈ used, u ∈ c) → c.length - used.length ≤ fuel →
      (primLoop c dist fuel used).length = c.length - used.length ∧
      (∀ e ∈ primLoop c dist fuel used, e.1 ∈ c ∧ e.2 ∈ c) ∧
      (∀ v ∈ c, ∃ u ∈ used, Reach (primLoop c dist fuel used) u v) := by
  intro fuel
  induction fuel with
  | zero =>
    intro used _ hnd hsub hfuel
    exact primLoop_spec_full c dist 0 used hnd hsub (by omega)
  | succ f ih =>
    intro used hne hnd hsub hfuel
    by_cases hlt : used.length < c.length
    · obtain ⟨p, hp⟩ := findBest_isSome hfin hsub hne hcd hlt
      obtain ⟨hw, hp1, hp2, hp3⟩ := findBest_some_spec hp
      have hred : primLoop c dist (f + 1) used =
          p :: primLoop c dist f (used ++ [p.2]) := by
        simp only [primLoop, if_pos hlt, hp]
      have hnd' : (used ++ [p.2]).Nodup := by
        refine hnd.append (List.nodup_singleton p.2) ?_
        intro z hz hmem
        simp only [List.mem_singleton] at hmem
        subst hmem
        exact hp3 hz
      have hsub' : ∀ u ∈ used ++ [p.2], u ∈ c := by
        intro u hu
        rcases List.mem_append.mp hu with h | h
        · exact hsub u h
        · simp only [List.mem_singleton] at h
          subst h
          exact hp2
      have hne' : used ++ [p.2] ≠ [] := by simp
      have hfuel' : c.length - (used ++ [p.2]).length ≤ f := by
        simp only [List.length_append, List.length_singleton]
        omega
      obtain ⟨ihlen, ihmem, ihreach⟩ := ih (used ++ [p.2]) hne' hnd' hsub' hfuel'
      rw [hred]
      refine ⟨?_, ?_, ?_⟩
      · rw [List.length_cons, ihlen]
        simp only [List.length_append, List.length_singleton]
        omega
      · intro e he
        rcases List.mem_cons.mp he with heq | he'
        · rw [heq]
          exact ⟨hsub p.1 hp1, hp2⟩
        · exact ihmem e he'
      · intro v hv
        obtain ⟨u, hu, hpath⟩ := ihreach v hv
        have hmono : ∀ s t, Reach (primLoop c dist f (used ++ [p.2])) s t →
            Reach (p :: primLoop c dist f (used ++ [p.2])) s t := by
          intro s t h
          refine Relation.ReflTransGen.mono ?_ h
          intro z w hzw
          rcases hzw with h' | h'
          · exact Or.inl (List.mem_cons_of_mem p h')
          · exact Or.inr (List.mem_cons_of_mem p h')
        rcases List.mem_append.mp hu with h | h
        · exact ⟨u, h, hmono _ _ hpath⟩
        · simp only [List.mem_singleton] at h
          subst h
          refine ⟨p.1, hp1, Relation.ReflTransGen.head ?_ (hmono _ _ hpath)⟩
          exact Or.inl (List.mem_cons_self p _)
    · exact primLoop_spec_full c dist (f + 1) used hnd hsub hlt

lemma primLoop_opt (c : List Nat) (dist : Nat → Nat → Nat) (hcd : c.Nodup)
    (hfin : ∀ u ∈ c, ∀ v ∈ c, u ≠ v → dist u v < INF)
    (hsym : ∀ u ∈ c, ∀ v ∈ c, dist u v = dist v u) :
    ∀ (fuel : Nat) (used : List Nat) (S : List (Nat × Nat)), used ≠ [] →
      used.Nodup → (∀ u ∈ used, u ∈ c) → c.length - used.length ≤ fuel →
      memberEdges c S →
      (∀ a ∈ c, ∀ b ∈ c, Relation.ReflTransGen (ConnVia S used) a b) →
      weightSum dist (primLoop c dist fuel used) ≤ weightSum dist S := by
  intro fuel
  induction fuel with
  | zero =>
    intro used S _ _ _ hfuel _ _
    rw [primLoop_full c dist 0 used (by omega)]
    exact Nat.zero_le _
  | succ f ih =>
    intro used S hne hnd hsub hfuel hmem hspan
    by_cases hlt : used.length < c.length
    · obtain ⟨p, hp⟩ := findBest_isSome hfin hsub hne hcd hlt
      obtain ⟨hw, hp1, hp2, hp3⟩ := findBest_some_spec hp
      have hred : primLoop c dist (f + 1) used =
          p :: primLoop c dist f (used ++ [p.2]) := by
        simp only [primLoop, if_pos hlt, hp]
      obtain ⟨u0, hu0⟩ := List.exists_mem_of_ne_nil used hne
      have hpath0 : Relation.ReflTransGen (ConnVia S used) u0 p.2 :=
        hspan u0 (hsub u0 hu0) p.2 hp2
      obtain ⟨y, x, hyn, hxU, hedge, hout⟩ :=
        crossing_of_reach S used u0 hu0 p.2 hpath0 hp3
      have hxyc : x ∈ c ∧ y ∈ c := by
        rcases hedge with h | h
        · exact hmem (x, y) h
        · exact ⟨(hmem (y, x) h).2, (hmem (y, x) h).1⟩
      obtain ⟨e, heS, hew, hecases⟩ :
          ∃ e, e ∈ S ∧ dist e.1 e.2 = dist x y ∧ (e = (x, y) ∨ e = (y, x)) := by
        rcases hedge with h | h
        · exact ⟨(x, y), h, rfl, Or.inl rfl⟩
        · exact ⟨(y, x), h, hsym y hxyc.2 x hxyc.1, Or.inr rfl⟩
      have hwS : weightSum dist S =
          dist x y + weightSum dist (eraseEdge S e) := by
        rw [weightSum_eraseEdge dist S e heS, hew]
      have hble : (findBest dist used c).2 ≤ dist x y :=
        findBest_le hxU hxyc.2 hyn
      rw [hw] at hble
      have hmem'' : memberEdges c (eraseEdge S e) :=
        fun q hq => hmem q (eraseEdge_subset S e q hq)
      have hp2u' : p.2 ∈ used ++ [p.2] :=
        List.mem_append.mpr (Or.inr (List.mem_singleton.mpr rfl))
      have hub' : ∀ u ∈ used, u ∈ used ++ [p.2] :=
        fun u hu => List.mem_append.mpr (Or.inl hu)
      have hlift_out : ∀ s t, OutStep S used s t →
          ConnVia (eraseEdge S e) (used ++ [p.2]) s t := by
        intro s t h
        obtain ⟨he', hsU, htU⟩ := h
        refine Or.inl ?_
        rcases he' with h' | h'
        · refine Or.inl (mem_eraseEdge_of_ne S e (s, t) ?_ h')
          intro heq
          rcases hecases with rfl | rfl
          · injection heq with h1 h2
            exact hsU (h1.symm ▸ hxU)
          · injection heq with h1 h2
            exact htU (h2.symm ▸ hxU)
        · refine Or.inr (mem_eraseEdge_of_ne S e (t, s) ?_ h')
          intro heq
          rcases hecases with rfl | rfl
          · injection heq with h1 h2
            exact htU (h1.symm ▸ hxU)
          · injection heq with h1 h2
            exact hsU (h2.symm ▸ hxU)
      have hpyy : Relation.ReflTransGen
          (ConnVia (eraseEdge S e) (used ++ [p.2])) p.2 y :=
        Relation.ReflTransGen.mono (fun s t h => hlift_out s t h) hout
      have hxy : Relation.ReflTransGen
          (ConnVia (eraseEdge S e) (used ++ [p.2])) x y :=
        Relation.ReflTransGen.head (Or.inr ⟨hub' x hxU, hp2u'⟩) hpyy
      have hsymCV : ∀ s t, ConnVia (eraseEdge S e) (used ++ [p.2]) s t →
          ConnVia (eraseEdge S e) (used ++ [p.2]) t s := by
        intro s t h
        rcases h with h | h
        · rcases h with h' | h'
          · exact Or.inl (Or.inr h')
          · exact Or.inl (Or.inl h')
        · exact Or.inr ⟨h.2, h.1⟩
      have hyx := rtg_symm hsymCV x y hxy
      have hmimic : ∀ s t, ConnVia S used s t →
          Relation.ReflTransGen (ConnVia (eraseEdge S e) (used ++ [p.2])) s t := by
        intro s t h
        rcases h with h | h
        · rcases h with h' | h'
          · by_cases heq : (s, t) = e
            · rcases hecases with rfl | rfl
              · injection heq with h1 h2
                subst h1
                subst h2
                exact hxy
              · injection heq with h1 h2
                subst h1
                subst h2
                exact hyx
            · exact Relation.ReflTransGen.single
                (Or.inl (Or.inl (mem_eraseEdge_of_ne S e (s, t) heq h')))
          · by_cases heq : (t, s) = e
            · rcases hecases with rfl | rfl
              · injection heq with h1 h2
                subst h1
                subst h2
                exact hyx
              · injection heq with h1 h2
                subst h1
                subst h2
                exact hxy
            · exact Relation.ReflTransGen.single
                (Or.inl (Or.inr (mem_eraseEdge_of_ne S e (t, s) heq h')))
        · exact Relation.ReflTransGen.single (Or.inr ⟨hub' s h.1, hub' t h.2⟩)
      have hspan'' : ∀ a ∈ c, ∀ b ∈ c, Relation.ReflTransGen
          (ConnVia (eraseEdge S e) (used ++ [p.2])) a b :=
        fun a ha b hb => rtg_lift hmimic a b (hspan a ha b hb)
      have hnd' : (used ++ [p.2]).Nodup := by
        refine hnd.append (List.nodup_singleton p.2) ?_
        intro z hz hmem2
        simp only [List.mem_singleton] at hmem2
        subst hmem2
        exact hp3 hz
      have hsub' : ∀ u ∈ used ++ [p.2], u ∈ c := by
        intro u hu
        rcases List.mem_append.mp hu with h | h
        · exact hsub u h
        · simp only [List.mem_singleton] at h
          subst h
          exact hp2
      have hne' : used ++ [p.2] ≠ [] := by simp
      have hfuel' : c.length - (used ++ [p.2]).length ≤ f := by
        simp only [List.length_append, List.length_singleton]
        omega
      have hIH := ih (used ++ [p.2]) (eraseEdge S e) hne' hnd' hsub' hfuel'
        hmem'' hspan''
      rw [hred, weightSum_cons, hwS]
      omega
    · rw [primLoop_full c dist (f + 1) used hlt]
      exact Nat.zero_le _

/-- **C5.** For a cluster `c` of distinct members with all pairwise
distances finite (below the `1e9` sentinel) and symmetric, the Prim route
builder produces exactly `c.length - 1` tree edges, every edge joins two
cluster members, the edges connect all members, and the total
distance-matrix weight of the edges equals the minimum spanning tree
weight of the complete weighted graph on the members: the infimum of the
weights of all member-internal spanning edge sets. -/
theorem buildMst_correct (c : List Nat) (dist : Nat → Nat → Nat)
    (hne : c ≠ []) (hcd : c.Nodup)
    (hfin : ∀ u ∈ c, ∀ v ∈ c, u ≠ v → dist u v < INF)
    (hsym : ∀ u ∈ c, ∀ v ∈ c, dist u v = dist v u) :
    (buildMstEdges c dist).length = c.length - 1 ∧
    memberEdges c (buildMstEdges c dist) ∧
    Spans c (buildMstEdges c dist) ∧
    weightSum dist (buildMstEdges c dist) = sInf (mstWeights c dist) := by
  obtain ⟨c0, rest, rfl⟩ : ∃ c0 rest, c = c0 :: rest := by
    cases c with
    | nil => exact absurd rfl hne
    | cons c0 rest => exact ⟨c0, rest, rfl⟩
  have hc0 : c0 ∈ c0 :: rest := List.mem_cons_self c0 rest
  have hu_ne : ([c0] : List Nat) ≠ [] := by simp
  have hu_nd : ([c0] : List Nat).Nodup := List.nodup_singleton c0
  have hu_sub : ∀ u ∈ ([c0] : List Nat), u ∈ c0 :: rest := by
    intro u hu
    simp only [List.mem_singleton] at hu
    subst hu
    exact hc0
  have hu_fuel : (c0 :: rest).length - ([c0] : List Nat).length ≤
      (c0 :: rest).length := by
    omega
  have hbuild : buildMstEdges (c0 :: rest) dist =
      primLoop (c0 :: rest) dist (c0 :: rest).length [c0] := rfl
  obtain ⟨hlen, hmemE, hreach⟩ := primLoop_spec (c0 :: rest) dist hcd hfin
    (c0 :: rest).length [c0] hu_ne hu_nd hu_sub hu_fuel
  have hreach0 : ∀ v ∈ c0 :: rest,
      Reach (primLoop (c0 :: rest) dist (c0 :: rest).length [c0]) c0 v := by
    intro v hv
    obtain ⟨u, hu, hp⟩ := hreach v hv
    simp only [List.mem_singleton] at hu
    subst hu
    exact hp
  have hspans : Spans (c0 :: rest) (buildMstEdges (c0 :: rest) dist) := by
    intro a ha b hb
    rw [hbuild]
    have hsymE : ∀ s t,
        EdgeRel (primLoop (c0 :: rest) dist (c0 :: rest).length [c0]) s t →
        EdgeRel (primLoop (c0 :: rest) dist (c0 :: rest).length [c0]) t s := by
      intro s t h
      rcases h with h | h
      · exact Or.inr h
      · exact Or.inl h
    exact Relation.ReflTransGen.trans (rtg_symm hsymE c0 a (hreach0 a ha))
      (hreach0 b hb)
  have hmemW : weightSum dist (buildMstEdges (c0 :: rest) dist) ∈
      mstWeights (c0 :: rest) dist := by
    refine ⟨buildMstEdges (c0 :: rest) dist, ?_, hspans, rfl⟩
    rw [hbuild]
    exact hmemE
  have hlower : ∀ n ∈ mstWeights (c0 :: rest) dist,
      weightSum dist (buildMstEdges (c0 :: rest) dist) ≤ n := by
    rintro n ⟨S, hS1, hS2, rfl⟩
    rw [hbuild]
    refine primLoop_opt (c0 :: rest) dist hcd hfin hsym (c0 :: rest).length [c0] S
      hu_ne hu_nd hu_sub hu_fuel hS1 ?_
    intro a ha b hb
    refine Relation.ReflTransGen.mono ?_ (hS2 a ha b hb)
    intro s t h
    exact Or.inl h
  refine ⟨?_, ?_, hspans, ?_⟩
  · rw [hbuild, hlen]
    simp
  · rw [hbuild]
    exact hmemE
  · exact le_antisymm (le_csInf ⟨_, hmemW⟩ hlower) (Nat.sInf_le hmemW)

/-- **C5 witness**: on the concrete member list `[0, 1, 2]` with the
symmetric finite distance table `demoDist`, the hypotheses hold and the
Prim output is a minimum spanning tree. -/
theorem buildMst_correct_witness :
    (([0, 1, 2] : List Nat) ≠ [] ∧ ([0, 1, 2] : List Nat).Nodup ∧
      (∀ u ∈ ([0, 1, 2] : List Nat), ∀ v ∈ ([0, 1, 2] : List Nat), u ≠ v →
        demoDist u v < INF) ∧
      (∀ u ∈ ([0, 1, 2] : List Nat), ∀ v ∈ ([0, 1, 2] : List Nat),
        demoDist u v = demoDist v u)) ∧
    ((buildMstEdges [0, 1, 2] demoDist).length =
        ([0, 1, 2] : List Nat).length - 1 ∧
      memberEdges [0, 1, 2] (buildMstEdges [0, 1, 2] demoDist) ∧
      Spans [0, 1, 2] (buildMstEdges [0, 1, 2] demoDist) ∧
      weightSum demoDist (buildMstEdges [0, 1, 2] demoDist) =
        sInf (mstWeights [0, 1, 2] demoDist)) :=
  ⟨⟨by decide, by decide, by decide, by decide⟩,
    buildMst_correct [0, 1, 2] demoDist (by decide) (by decide) (by decide)
      (by decide)⟩

end AutoPatrol
